import Mathlib

set_option autoImplicit false
set_option linter.unusedVariables false
set_option linter.unreachableTactic false
set_option linter.unusedTactic false

/-!
Verification of the adaptix / dataclass_factory core against its source:
the request-checker predicate algebra and providers (`provider_basics.py`),
figure construction invariants (`model_tools/definitions.py`), the sieve
maker and the structural name-layout maker (`morphing/name_layout/component.py`),
and the crown data model (`provider/fields_basics.py`).

The embedding is shallow: Python `Union` types become inductives, dicts and
sets become insertion-ordered association lists, raising `CannotProvide` or
`ValueError` becomes returning `Except.error`, and message strings become
structured constructors carrying the interpolated data.
-/

namespace Adaptix

/-! ## Keys and key paths (`Key = Union[str, int]`, `KeyPath = VarTuple[Key]`) -/

inductive Key where
  | str (s : String)
  | idx (i : Int)
deriving DecidableEq, Repr

abbrev KeyPath := List Key

def Key.isIdx : Key → Bool
  | .idx _ => true
  | .str _ => false

/-- `isinstance(path[-1], int)` for the (nonempty) paths the checks read;
an empty path would raise `IndexError` in the source and yields `false` here. -/
def lastIsIdx (path : KeyPath) : Bool :=
  match path.getLast? with
  | some (.idx _) => true
  | _ => false

/-! ## `CannotProvide` -/

/-- Structured stand-ins for the message strings the embedded code passes to
`CannotProvide`; each constructor carries the data its format string
interpolates. -/
inductive ErrMsg where
  | pathsPointedToSeveralFields (duplicates : List (KeyPath × List String))
  | prefixConflict (details : List (KeyPath × List KeyPath))
  | optionalFieldsAtList (ids : List String)
  | requiredFieldsSkipped (ids : List String)
  | inconsistentPathElements (sub_path : KeyPath)
  | requestStackTooSmall
  | collectExtraInWithListMapping
deriving DecidableEq, Repr

/-- Modelled from the spec: `CannotProvide` (`provider/essential.py`, not under
`src/`) — "Fields: optional message, optional ordered sequence of sub-errors
(tree of failure causes), `is_terminal` ... and `is_demonstrative` ... flags.
Invariant: an empty `CannotProvide` (no message, no sub-errors) is a valid
silent decline." A bare `CannotProvide()` has no message, no sub-errors and
both flags false. -/
inductive CannotProvide where
  | mk (message : Option ErrMsg) (sub_errors : List CannotProvide)
      (is_terminal : Bool) (is_demonstrative : Bool)

def CannotProvide.message : CannotProvide → Option ErrMsg
  | .mk m _ _ _ => m

def CannotProvide.sub_errors : CannotProvide → List CannotProvide
  | .mk _ s _ _ => s

def CannotProvide.is_terminal : CannotProvide → Bool
  | .mk _ _ t _ => t

def CannotProvide.is_demonstrative : CannotProvide → Bool
  | .mk _ _ _ d => d

/-- Whether a fallible computation succeeded (Python: no exception escaped). -/
def okB {ε α : Type} : Except ε α → Bool
  | .ok _ => true
  | .error _ => false

/-! ## Request checkers (`provider_basics.py`) -/

/-- Shallow embedding of `RequestChecker.check_request`: success or a
`CannotProvide`; the mediator argument is absorbed into the function. -/
abbrev Checker (Req : Type) := Req → Except CannotProvide Unit

/-- `XorRequestChecker.check_request`: run both sides collecting their
exceptions; zero exceptions → raise an empty `CannotProvide`, two → raise one
carrying both as `sub_errors` in order, one → succeed. -/
def XorRequestChecker_check {Req : Type} (left right : Checker Req) (request : Req) :
    Except CannotProvide Unit :=
  match left request, right request with
  | .ok _, .ok _ => .error (.mk none [] false false)
  | .error e1, .error e2 => .error (.mk none [e1, e2] false false)
  | _, _ => .ok ()

/-- The loop of `StackEndRC.check_request`: run each checker against the stack
entry it is zipped with; the first failure escapes. -/
def runCheckers {Req : Type} : List (Checker Req × Req) → Except CannotProvide Unit
  | [] => .ok ()
  | (c, r) :: rest =>
    match c r with
    | .error e => .error e
    | .ok _ => runCheckers rest

/-- `StackEndRC.check_request`: `offset = len(stack) - len(request_checkers)`;
a negative offset fails with "Request stack is too small"; otherwise the
checkers are zipped with `stack[offset:]`. -/
def StackEndRC_check {Req : Type} (request_checkers : List (Checker Req))
    (stack : List Req) : Except CannotProvide Unit :=
  let offset : Int := (stack.length : Int) - (request_checkers.length : Int)
  if offset < 0 then
    .error (.mk (some .requestStackTooSmall) [] false false)
  else
    runCheckers (request_checkers.zip (stack.drop offset.toNat))

/-! ## Chaining provider (`provider_basics.py`) -/

inductive Chain where
  | first
  | last
deriving DecidableEq, Repr

/-- `ChainingProvider._make_chain`. -/
def make_chain {α β γ : Type} (first : α → β) (second : β → γ) : α → γ :=
  fun data => second (first data)

/-- `ChainingProvider.apply_provider`: resolve the provider's own processor,
obtain the downstream processor (`mediator.provide_from_next()`), and compose
them per the chain position; the closed `Chain` enum rules out the source's
unreachable `raise ValueError` arm. -/
def ChainingProvider_apply {α : Type} (chain : Chain)
    (own downstream : Except CannotProvide (α → α)) :
    Except CannotProvide (α → α) := do
  let current_processor ← own
  let next_processor ← downstream
  match chain with
  | .first => pure (make_chain current_processor next_processor)
  | .last => pure (make_chain next_processor current_processor)

/-! ## Input figure validation (`model_tools/definitions.py`) -/

inductive ParamKind where
  | posOnly
  | posOrKw
  | kwOnly
deriving DecidableEq, Repr

/-- `ParamKind` enum values (2 is reserved for VAR_POS in the source). -/
def ParamKind.value : ParamKind → Nat
  | .posOnly => 0
  | .posOrKw => 1
  | .kwOnly => 3

/-- Structured stand-ins for the construction-time `ValueError` messages. -/
inductive ValueErr where
  | duplicateFieldNames (names : List String)
  | wildExtraTargets (targets : List String)
  | duplicateParamNames (names : List String)
  | inconsistentFieldOrder (past current : ParamKind)
  | optionalBeforeRequiredField
  | noDefaultForSieve
  | originParametrized
  | cannotCreateChecker
  | normalizeFailed
deriving DecidableEq, Repr

/-- `InputField` as `InputFigure._validate` reads it; the type hint, default
and metadata attributes are never consulted by validation and are omitted. -/
structure InputField where
  name : String
  param_name : String
  is_required : Bool
  param_kind : ParamKind
deriving DecidableEq, Repr

def InputField.is_optional (f : InputField) : Bool := !f.is_required

/-- `InpFigureExtra = Union[None, ExtraKwargs, ExtraTargets, ExtraSaturate]`;
the saturating callable's payload is irrelevant to validation. -/
inductive FigureExtra where
  | none
  | kwargs
  | targets (fields : List String)
  | saturate
deriving DecidableEq, Repr

/-- `BaseFigure._validate`: field names must be unique, and `ExtraTargets` may
reference only existing fields (the Python name set is modelled by `dedup`). -/
def BaseFigure_validate (fields : List InputField) (extra : FigureExtra) :
    Except ValueErr Unit :=
  let field_names := (fields.map InputField.name).dedup
  if field_names.length ≠ fields.length then
    .error (.duplicateFieldNames field_names)
  else
    match extra with
    | .targets ts =>
      let wild_targets := ts.filter (fun t => decide (¬ t ∈ field_names))
      if wild_targets ≠ [] then .error (.wildExtraTargets wild_targets) else .ok ()
    | _ => .ok ()

/-- The `for past, current in pairs(self.fields)` loop of
`InputFigure._validate`: parameter kinds must be monotone, and a required,
not keyword-only field may not follow an optional one. -/
def checkFieldPairs : List InputField → Except ValueErr Unit
  | past :: current :: rest =>
    if past.param_kind.value > current.param_kind.value then
      .error (.inconsistentFieldOrder past.param_kind current.param_kind)
    else if past.is_optional = true ∧ current.is_required = true
        ∧ current.param_kind ≠ ParamKind.kwOnly then
      .error .optionalBeforeRequiredField
    else
      checkFieldPairs (current :: rest)
  | _ => .ok ()

/-- `InputFigure._validate`: the base checks, then unique `param_name`s, then
the adjacent-pair parameter checks. -/
def InputFigure_validate (fields : List InputField) (extra : FigureExtra) :
    Except ValueErr Unit := do
  BaseFigure_validate fields extra
  let param_names := (fields.map InputField.param_name).dedup
  if param_names.length ≠ fields.length then
    .error (.duplicateParamNames param_names)
  else
    checkFieldPairs fields

/-! ## Sieves (`component.py`, `BuiltinSievesMaker`) -/

/-- Field default policies (`model_tools/definitions.py`, plus the newer
`DefaultFactoryWithSelf`): no default, a value, a zero-argument factory, or a
factory invoked with the owning object. `σ` is the owner type, `α` the field
value type. -/
inductive FieldDefault (σ α : Type) where
  | noDefault
  | value (v : α)
  | factory (f : Unit → α)
  | factoryWithSelf (f : σ → α)

/-- A sieve: `(ownerObject, fieldValue) -> keep`. -/
abbrev Sieve (σ α : Type) := σ → α → Bool

/-- Modelled from the spec: `with_default_clause`
(`special_cases_optimization.py`, not under `src/`) tags a sieve with its
default for later codegen optimization; the routine itself — "(ownerObject,
fieldValue) -> keep:boolean" — is unchanged. -/
def with_default_clause {σ α : Type} (d : FieldDefault σ α) (s : Sieve σ α) :
    Sieve σ α := s

/-- `BuiltinSievesMaker._create_sieve`: keep the value iff it differs from the
(freshly computed) default; a field with no default raises `ValueError`. -/
def create_sieve {σ α : Type} [DecidableEq α] (d : FieldDefault σ α) :
    Except ValueErr (Sieve σ α) :=
  match d with
  | .value v =>
    .ok (with_default_clause d (fun obj value => decide (value ≠ v)))
  | .factory f =>
    .ok (with_default_clause d (fun obj value => decide (value ≠ f ())))
  | .factoryWithSelf f =>
    .ok (with_default_clause d (fun obj value => decide (value ≠ f obj)))
  | .noDefault => .error .noDefaultForSieve

/-! ## Checker construction (`provider_basics.py`: `create_req_checker`) -/

/-- An opaque Python object serving as a type or origin: an identity plus the
two capability flags `match_origin` consults. -/
structure PyObj where
  oid : Nat
  protocolFlag : Bool
  abstractFlag : Bool
deriving DecidableEq, Repr

/-- Modelled from the spec: the external `is_protocol` helper (type
introspection is an external collaborator) reads the protocol capability. -/
def is_protocol (o : PyObj) : Bool := o.protocolFlag

/-- Modelled from the spec: `inspect.isabstract` reads the abstract
capability. -/
def isabstract (o : PyObj) : Bool := o.abstractFlag

/-- A normalized type (`BaseNormType`): an identity and its `origin`. -/
structure NormType where
  nid : Nat
  origin : PyObj
deriving DecidableEq, Repr

/-- The four outcomes of `normalize_type` on a hint: a normalized type, a
`NormTV` (type variable, whose `origin` is the variable object), a
`NotSubscribedError`, or a `ValueError`. -/
inductive NormalizeResult where
  | ok (n : NormType)
  | tv (origin : PyObj)
  | notSubscribed
  | valueError
deriving DecidableEq, Repr

/-- Modelled from the spec: a type hint, embedded as the answers the external
`type_tools` helpers give for it — its `normalize_type` outcome, its
`is_parametrized` flag, and the hint itself viewed as an origin object. -/
structure TypeHint where
  parametrized : Bool
  normalize : NormalizeResult
  asOrigin : PyObj
deriving DecidableEq, Repr

/-- The request-checker dataclasses `create_req_checker` can return; a
compiled regex is modelled by its pattern string, and `prebuiltChecker`
stands for a pre-built `RequestChecker` passed through unchanged. -/
inductive RC where
  | exactFieldName (field_name : String)
  | reFieldName (pat : String)
  | exactType (norm : NormType)
  | subclass (type_ : PyObj)
  | exactOrigin (origin : PyObj)
  | prebuiltChecker (cid : Nat)
deriving DecidableEq, Repr

def RC.isSubclassRC : RC → Bool
  | .subclass _ => true
  | _ => false

/-- ASCII core of Python's `str.isidentifier`: nonempty, starts with a letter
or underscore, continues with letters, digits or underscores. -/
def pyIsIdentifier (s : String) : Bool :=
  match s.data with
  | [] => false
  | c :: cs => (c.isAlpha || c == '_') && cs.all (fun d => d.isAlphanum || d == '_')

/-- `create_type_hint_req_checker`: `NotSubscribedError` → `ExactOriginRC(tp)`;
a `ValueError` from normalization or a `NormTV` result → a fresh
construction-time `ValueError`; otherwise `ExactTypeRC(norm)`. -/
def create_type_hint_req_checker (tp : TypeHint) : Except ValueErr RC :=
  match tp.normalize with
  | .notSubscribed => .ok (.exactOrigin tp.asOrigin)
  | .valueError => .error .cannotCreateChecker
  | .tv _ => .error .cannotCreateChecker
  | .ok n => .ok (.exactType n)

/-- `match_origin`: rejects parametrized hints; takes the normalized origin,
falling back to the hint itself on `NotSubscribedError` (an uncaught
normalization `ValueError` propagates); protocol-like or abstract origins get
a `SubclassRC`, others an `ExactOriginRC`. -/
def match_origin (tp : TypeHint) : Except ValueErr RC :=
  if tp.parametrized then .error .originParametrized
  else
    match tp.normalize with
    | .valueError => .error .normalizeFailed
    | .notSubscribed =>
      if is_protocol tp.asOrigin || isabstract tp.asOrigin then
        .ok (.subclass tp.asOrigin)
      else .ok (.exactOrigin tp.asOrigin)
    | .tv o =>
      if is_protocol o || isabstract o then .ok (.subclass o) else .ok (.exactOrigin o)
    | .ok n =>
      if is_protocol n.origin || isabstract n.origin then
        .ok (.subclass n.origin)
      else .ok (.exactOrigin n.origin)

/-- The runtime cases of `create_req_checker`'s argument
`pred: Union[TypeHint, str, RequestChecker]` (plus `re.Pattern`). -/
inductive CheckerPred where
  | str (s : String)
  | pattern (p : String)
  | checker (c : RC)
  | hint (t : TypeHint)
deriving DecidableEq, Repr

/-- `create_req_checker`: identifier strings get the exact-field-name fast
path, other strings a compiled-regex full-match checker, `re.Pattern`s wrap
as-is, pre-built checkers pass through, anything else goes through
`create_type_hint_req_checker`. -/
def create_req_checker (pred : CheckerPred) : Except ValueErr RC :=
  match pred with
  | .str s => if pyIsIdentifier s then .ok (.exactFieldName s) else .ok (.reFieldName s)
  | .pattern p => .ok (.reFieldName p)
  | .checker c => .ok c
  | .hint t => create_type_hint_req_checker t

/-! ## Structure maker: fields, grouping and validation (`component.py`) -/

/-- A field as the structure maker's checks read it: its `id` and whether it
is required (`is_optional` is the negation). -/
structure AnyField where
  id : String
  is_required : Bool
deriving DecidableEq, Repr

def AnyField.is_optional (f : AnyField) : Bool := !f.is_required

abbrev FieldAndPath := AnyField × Option KeyPath

/-- One `defaultdict(list)` update of `_validate_structure`: append the field
to its path's group, creating the group at the end on first use. -/
def addToGroup (groups : List (KeyPath × List AnyField)) (path : KeyPath)
    (f : AnyField) : List (KeyPath × List AnyField) :=
  match groups with
  | [] => [(path, [f])]
  | (q, fs) :: rest =>
    if q = path then (q, fs ++ [f]) :: rest else (q, fs) :: addToGroup rest path f

/-- The `paths_to_fields` mapping of `_validate_structure`: fields grouped by
their mapped path, in insertion order. -/
def paths_to_fields (ftp : List FieldAndPath) : List (KeyPath × List AnyField) :=
  ftp.foldl
    (fun groups fp =>
      match fp.2 with
      | none => groups
      | some path => addToGroup groups path fp.1)
    []

/-- The fields mapped to `path`, in order of appearance. -/
def mappedFields (path : KeyPath) (ftp : List FieldAndPath) : List AnyField :=
  ftp.filterMap (fun fp => if fp.2 = some path then some fp.1 else none)

def findGroup (path : KeyPath) (groups : List (KeyPath × List AnyField)) :
    List AnyField :=
  match groups with
  | [] => []
  | (q, fs) :: rest => if q = path then fs else findGroup path rest

/-- The `duplicates` dict of `_validate_structure`: every path two or more
fields point to, with all its fields' ids. -/
def dupGroups (ftp : List FieldAndPath) : List (KeyPath × List String) :=
  (paths_to_fields ftp).filterMap
    (fun e => if 1 < e.2.length then some (e.1, e.2.map AnyField.id) else none)

def isStrictPrefixB (p q : KeyPath) : Bool := p.isPrefixOf q && p != q

/-- Modelled from the spec: `get_prefix_groups` (`utils.py`, not under `src/`)
— "no path is a strict prefix of another mapped path": each mapped path that
is a strict prefix of other mapped paths, grouped with those paths. -/
def get_prefix_groups (paths : List KeyPath) : List (KeyPath × List KeyPath) :=
  paths.filterMap (fun p =>
    let longer := paths.filter (fun q => isStrictPrefixB p q)
    if longer = [] then none else some (p, longer))

/-- `BuiltinStructureMaker._validate_structure`: duplicate destination paths,
then prefix conflicts, then optional fields mapped to a trailing list index;
each failure is a terminal, demonstrative `CannotProvide`. -/
def validate_structure (ftp : List FieldAndPath) : Except CannotProvide Unit :=
  let dups := dupGroups ftp
  if dups ≠ [] then
    .error (.mk (some (.pathsPointedToSeveralFields dups)) [] true true)
  else
    let pg := get_prefix_groups (ftp.filterMap (fun fp => fp.2))
    if pg ≠ [] then
      .error (.mk (some (.prefixConflict pg)) [] true true)
    else
      let optional_fields_at_list := ftp.filterMap (fun fp =>
        match fp.2 with
        | some path =>
          if fp.1.is_optional && lastIsIdx path then some fp.1.id else none
        | none => none)
      if optional_fields_at_list ≠ [] then
        .error (.mk (some (.optionalFieldsAtList optional_fields_at_list)) [] true true)
      else
        .ok ()

/-- Two distinct entries of `fields_to_paths` map their fields to the same
destination path. -/
def HasDupPaths (ftp : List FieldAndPath) : Prop :=
  ∃ p l1 f1 l2 f2 l3, ftp = l1 ++ (f1, some p) :: l2 ++ (f2, some p) :: l3

/-! ## Structure maker: sub-paths, gap analysis and leaf maps -/

abbrev SubPath := KeyPath × Key

/-- The pair `(path[:j], path[j])`, with a dummy key out of range (all uses
have `j < path.length`). -/
def pairAt (path : KeyPath) (j : Nat) : SubPath :=
  (path.take j, path.getD j (.str ""))

/-- The inner loop of `_iterate_sub_paths` for one `path`: indices
`n-1, …, 0` descending; stop at the first `(path[:i], path[i])` already
yielded; returns the updated yielded set and the pairs yielded for this path
in order. -/
def subPathsStep (path : KeyPath) : List SubPath → Nat → List SubPath × List SubPath
  | yld, 0 => (yld, [])
  | yld, n + 1 =>
    match path[n]? with
    | none => (yld, [])
    | some k =>
      let r : SubPath := (path.take n, k)
      if r ∈ yld then (yld, [])
      else
        let step := subPathsStep path (r :: yld) n
        (step.1, r :: step.2)

def iterate_sub_paths_go : List SubPath → List KeyPath → List SubPath
  | _, [] => []
  | yld, p :: ps =>
    let step := subPathsStep p yld p.length
    step.2 ++ iterate_sub_paths_go step.1 ps

/-- `BuiltinStructureMaker._iterate_sub_paths`, threading the global yielded
set across paths. -/
def iterate_sub_paths (paths : List KeyPath) : List SubPath :=
  iterate_sub_paths_go [] paths

/-- A `set.add` on the insertion-ordered list standing for `Set[int]`. -/
def addIdx (s : List Int) (i : Int) : List Int :=
  if i ∈ s then s else s ++ [i]

/-- `paths_to_lists[sub_path].add(key)` on the insertion-ordered association
list standing for `DefaultDict[KeyPath, Set[int]]`. -/
def addListIdx (lists : List (KeyPath × List Int)) (p : KeyPath) (i : Int) :
    List (KeyPath × List Int) :=
  match lists with
  | [] => [(p, [i])]
  | (q, s) :: rest =>
    if q = p then (q, addIdx s i) :: rest else (q, s) :: addListIdx rest p i

/-- `paths_to_dicts.add(sub_path)` on the insertion-ordered list standing for
`Set[KeyPath]`. -/
def addDictPath (dicts : List KeyPath) (p : KeyPath) : List KeyPath :=
  if p ∈ dicts then dicts else dicts ++ [p]

/-- The loop of `_get_paths_to_list`: an int key under a path already used as
a dict (or vice versa) is an inconsistent-path-elements error, terminal and
demonstrative. -/
def get_paths_to_list_go :
    List (KeyPath × List Int) → List KeyPath → List SubPath →
    Except CannotProvide (List (KeyPath × List Int))
  | lists, _, [] => .ok lists
  | lists, dicts, (sub_path, key) :: rest =>
    match key with
    | .idx i =>
      if sub_path ∈ dicts then
        .error (.mk (some (.inconsistentPathElements sub_path)) [] true true)
      else
        get_paths_to_list_go (addListIdx lists sub_path i) dicts rest
    | .str _ =>
      if sub_path ∈ lists.map Prod.fst then
        .error (.mk (some (.inconsistentPathElements sub_path)) [] true true)
      else
        get_paths_to_list_go lists (addDictPath dicts sub_path) rest

/-- `BuiltinStructureMaker._get_paths_to_list`. -/
def get_paths_to_list (paths : List KeyPath) :
    Except CannotProvide (List (KeyPath × List Int)) :=
  get_paths_to_list_go [] [] (iterate_sub_paths paths)

/-- A Python dict assignment `m[k] = v` on the insertion-ordered association
list: replace in place, or append a new key. -/
def dictInsert {γ : Type} (m : List (KeyPath × γ)) (k : KeyPath) (v : γ) :
    List (KeyPath × γ) :=
  match m with
  | [] => [(k, v)]
  | (k2, v2) :: rest =>
    if k2 = k then (k2, v) :: rest else (k2, v2) :: dictInsert rest k v

def lookupKP {γ : Type} (k : KeyPath) (m : List (KeyPath × γ)) : Option γ :=
  match m with
  | [] => none
  | (k2, v) :: rest => if k2 = k then some v else lookupKP k rest

/-- Python `max` over the (always nonempty at use sites) index set. -/
def pyMaxInt (s : List Int) : Int :=
  s.foldl max (s.head?.getD 0)

/-- `range(n)` as integers: `0, …, n-1`, empty for `n ≤ 0`. -/
def pyRangeInt (n : Int) : List Int :=
  (List.range n.toNat).map (Nat.cast : Nat → Int)

/-- The gap-filling loop of `_make_paths_to_leaves` for one parent path:
every index below the maximum that is not mapped gets a placeholder leaf. -/
def fillGapsOne {γ : Type} (gaps_filler : KeyPath → γ) (m : List (KeyPath × γ))
    (path : KeyPath) (indexes : List Int) : List (KeyPath × γ) :=
  (pyRangeInt (pyMaxInt indexes)).foldl
    (fun acc i =>
      if i ∈ indexes then acc
      else dictInsert acc (path ++ [Key.idx i]) (gaps_filler (path ++ [Key.idx i])))
    m

/-- The initial `paths_to_leaves` dict comprehension of
`_make_paths_to_leaves`. -/
def leavesBase {γ : Type} (ftp : List FieldAndPath) (field_crown : String → γ) :
    List (KeyPath × γ) :=
  ftp.foldl
    (fun m fp =>
      match fp.2 with
      | none => m
      | some path => dictInsert m path (field_crown fp.1.id))
    []

/-- `BuiltinStructureMaker._make_paths_to_leaves`. -/
def make_paths_to_leaves {γ : Type} (ftp : List FieldAndPath)
    (field_crown : String → γ) (gaps_filler : KeyPath → γ) :
    Except CannotProvide (List (KeyPath × γ)) := do
  let base := leavesBase ftp field_crown
  let paths_to_lists ← get_paths_to_list (base.map Prod.fst)
  .ok (paths_to_lists.foldl (fun m e => fillGapsOne gaps_filler m e.1 e.2) base)

inductive LeafInpCrown where
  | fieldCrown (id : String)
  | noneCrown
deriving DecidableEq, Repr

/-- The only placeholder the structure maker emits on the output direction:
`DefaultValue(None)`. -/
inductive OutPlaceholder where
  | defaultValueNone
deriving DecidableEq, Repr

inductive LeafOutCrown where
  | fieldCrown (id : String)
  | noneCrown (placeholder : OutPlaceholder)
deriving DecidableEq, Repr

/-- `BuiltinStructureMaker._fill_input_gap`. -/
def fill_input_gap (_path : KeyPath) : LeafInpCrown := .noneCrown

/-- `BuiltinStructureMaker._fill_output_gap`. -/
def fill_output_gap (_path : KeyPath) : LeafOutCrown := .noneCrown .defaultValueNone

/-- `make_inp_structure` after field mapping: skipped-required check, leaf map
construction (with gap analysis), then structure validation. -/
def make_inp_structure_core (ftp : List FieldAndPath) :
    Except CannotProvide (List (KeyPath × LeafInpCrown)) := do
  let skipped_required_fields := ftp.filterMap
    (fun fp => if fp.2 = none ∧ fp.1.is_required = true then some fp.1.id else none)
  if skipped_required_fields ≠ [] then
    .error (.mk (some (.requiredFieldsSkipped skipped_required_fields)) [] true true)
  else do
    let paths_to_leaves ← make_paths_to_leaves ftp LeafInpCrown.fieldCrown fill_input_gap
    validate_structure ftp
    .ok paths_to_leaves

/-- `make_out_structure` after field mapping. -/
def make_out_structure_core (ftp : List FieldAndPath) :
    Except CannotProvide (List (KeyPath × LeafOutCrown)) := do
  let paths_to_leaves ← make_paths_to_leaves ftp LeafOutCrown.fieldCrown fill_output_gap
  validate_structure ftp
  .ok paths_to_leaves

/-! ## Crowns of `fields_basics.py` -/

/-- `ExtraPolicy = Union[ExtraSkip, ExtraForbid, ExtraCollect]`; also serves
the newer `DictExtraPolicy` of `crown_definitions`, which has the same three
inhabitants. -/
inductive ExtraPolicy where
  | skip
  | forbid
  | collect
deriving DecidableEq, Repr

/-- `Crown = Union[FieldCrown, None, DictCrown, ListCrown]`
(`fields_basics.py`). -/
inductive Crown where
  | fieldCrown (name : String)
  | noneCrown
  | dictCrown (map : List (String × Crown)) (extra : ExtraPolicy)
  | listCrown (map : List (Int × Crown)) (extra : ExtraPolicy)

/-- `ListCrown.list_len = max(self.map) + 1` — Python `max` over the map's
keys (it raises on an empty crown, excluded at use sites). -/
def ListCrown_list_len (map : List (Int × Crown)) : Int :=
  pyMaxInt (map.map Prod.fst) + 1

def LeafInpCrown.toCrown : LeafInpCrown → Crown
  | .fieldCrown id => .fieldCrown id
  | .noneCrown => .noneCrown

/-- The `(index, child)` entries directly under `parent` in a leaf map. -/
def idxChildren {γ : Type} (m : List (KeyPath × γ)) (parent : KeyPath) :
    List (Int × γ) :=
  m.filterMap (fun e =>
    if e.1.dropLast = parent then
      match e.1.getLast? with
      | some (.idx j) => some (j, e.2)
      | _ => none
    else none)

/-! ## Extra-move and extra-policies maker (`component.py`) -/

/-- The user-facing `extra_in` specification: the sentinels, `ExtraKwargs`, a
saturating callable, a single name or a sequence of names. -/
inductive ExtraIn where
  | skip
  | forbid
  | kwargs
  | saturate
  | one (name : String)
  | many (names : List String)
deriving DecidableEq, Repr

/-- `BuiltinExtraMoveAndPoliciesMaker._get_extra_policy`. -/
def get_extra_policy (extra_in : ExtraIn) : ExtraPolicy :=
  if extra_in = .skip then .skip
  else if extra_in = .forbid then .forbid
  else .collect

def subPairsDesc (p : KeyPath) : Nat → List SubPath
  | 0 => []
  | n + 1 =>
    match p[n]? with
    | none => subPairsDesc p n
    | some k => (p.take n, k) :: subPairsDesc p n

/-- One path's contribution to `_paths_to_branches`: Python iterates
`i = len(path)-1, …, 0, -1`; index `-1` re-yields the `i = len(path)-1` pair
as `(path[:-1], path[-1])`. For an empty path the source's `path[-1]` raises
`IndexError`; the theorems assume nonempty leaf paths and the empty case is
mapped to no pairs here. -/
def branchesOfPath (p : KeyPath) : List SubPath :=
  match p.getLast? with
  | none => []
  | some k => subPairsDesc p p.length ++ [(p.dropLast, k)]

/-- `_paths_to_branches`: the `yielded_branch_path` set in the source is never
added to, so its `break` never fires and every path yields all its pairs. -/
def paths_to_branches (paths : List KeyPath) : List SubPath :=
  paths.flatMap branchesOfPath

/-- The loop of `make_extra_policies`: `Collect` under an integer branch key
is a terminal, demonstrative error; otherwise the branch path is assigned the
root policy. -/
def make_extra_policies_go (policy : ExtraPolicy) :
    List (KeyPath × ExtraPolicy) → List SubPath →
    Except CannotProvide (List (KeyPath × ExtraPolicy))
  | acc, [] => .ok acc
  | acc, (path, key) :: rest =>
    if policy = .collect ∧ key.isIdx = true then
      .error (.mk (some .collectExtraInWithListMapping) [] true true)
    else
      make_extra_policies_go policy (dictInsert acc path policy) rest

/-- `BuiltinExtraMoveAndPoliciesMaker.make_extra_policies`: derive the root
policy, seed the root path with it, then walk every branch pair. -/
def make_extra_policies (extra_in : ExtraIn) (leaf_paths : List KeyPath) :
    Except CannotProvide (List (KeyPath × ExtraPolicy)) :=
  let policy := get_extra_policy extra_in
  make_extra_policies_go policy [([], policy)] (paths_to_branches leaf_paths)

/-! ## Closure of a yielded set (proof vocabulary for `_iterate_sub_paths`) -/

/-- Every yielded pair's own sub-pairs are yielded too: the invariant that
makes the dedup `break` of `_iterate_sub_paths` safe. -/
def ClosedSP (y : List SubPath) : Prop :=
  ∀ pr ∈ y, ∀ j, j < pr.1.length → pairAt pr.1 j ∈ y

/-! # Theorems -/

theorem except_bind_ok {ε α β : Type} (a : α) (f : α → Except ε β) :
    (Except.ok a >>= f : Except ε β) = f a := rfl

theorem except_bind_error {ε α β : Type} (e : ε) (f : α → Except ε β) :
    (Except.error e >>= f : Except ε β) = Except.error e := rfl

/-! ## C6: the Xor checker -/

/-- C6: `(a ^ b)` succeeds iff exactly one of the two checkers succeeds on the
request; when both succeed it fails with a `CannotProvide` carrying no
sub-errors, and when both fail it fails with a `CannotProvide` whose
sub-errors are the two underlying failures. -/
theorem xor_request_checker_spec {Req : Type} (a b : Checker Req) (r : Req) :
    (okB (XorRequestChecker_check a b r) = true ↔
      ((okB (a r) = true ∧ okB (b r) = false) ∨
        (okB (a r) = false ∧ okB (b r) = true))) ∧
    (∀ u v, a r = .ok u → b r = .ok v →
      XorRequestChecker_check a b r = .error (.mk none [] false false)) ∧
    (∀ e1 e2, a r = .error e1 → b r = .error e2 →
      XorRequestChecker_check a b r = .error (.mk none [e1, e2] false false)) := by
  rcases ha : a r with ea | ua <;> rcases hb : b r with eb | ub <;>
    simp [XorRequestChecker_check, ha, hb, okB]

/-! ## C7: the stack-positional checker -/

theorem runCheckers_ok_iff {Req : Type} (l : List (Checker Req × Req)) :
    okB (runCheckers l) = true ↔ ∀ p ∈ l, (okB (p.1 p.2) = true) := by
  induction l with
  | nil => simp [runCheckers, okB]
  | cons hd tl ih =>
    rcases hd with ⟨c, r⟩
    rcases h : c r with e | u
    · constructor
      · intro hok
        exfalso
        simp [runCheckers, h, okB] at hok
      · intro hall
        have hcr := hall (c, r) (List.mem_cons_self _ _)
        simp [okB, h] at hcr
    · constructor
      · intro hok p hp
        rcases List.mem_cons.mp hp with rfl | hp2
        · simp [h, okB]
        · have htl : okB (runCheckers tl) = true := by
            simpa [runCheckers, h] using hok
          exact ih.mp htl p hp2
      · intro hall
        have htl : okB (runCheckers tl) = true :=
          ih.mpr (fun p hp => hall p (List.mem_cons_of_mem _ hp))
        simpa [runCheckers, h] using htl

theorem stackEnd_eq_run {Req : Type} (cs : List (Checker Req)) (stack : List Req)
    (h : cs.length ≤ stack.length) :
    StackEndRC_check cs stack =
      runCheckers (cs.zip (stack.drop (stack.length - cs.length))) := by
  have h1 : ¬ ((stack.length : Int) - (cs.length : Int) < 0) := by omega
  have h2 : ((stack.length : Int) - (cs.length : Int)).toNat
      = stack.length - cs.length := by omega
  simp [StackEndRC_check, h1, h2]

theorem stackEnd_eq_small {Req : Type} (cs : List (Checker Req)) (stack : List Req)
    (h : stack.length < cs.length) :
    StackEndRC_check cs stack
      = .error (.mk (some .requestStackTooSmall) [] false false) := by
  have h1 : (stack.length : Int) - (cs.length : Int) < 0 := by omega
  simp [StackEndRC_check, h1]

/-- C7: `StackEndRC(cs)` succeeds iff the stack is at least as long as the
checker list and every checker succeeds on the stack entry it is zipped with
(the last `len(cs)` entries, tail-aligned); a shorter stack fails with the
stack-too-small error; an empty checker list always succeeds. -/
theorem stack_end_rc_spec {Req : Type} (cs : List (Checker Req)) (stack : List Req) :
    (okB (StackEndRC_check cs stack) = true ↔
      (cs.length ≤ stack.length ∧
        ∀ p ∈ cs.zip (stack.drop (stack.length - cs.length)),
          (okB (p.1 p.2) = true))) ∧
    (stack.length < cs.length →
      StackEndRC_check cs stack
        = .error (.mk (some .requestStackTooSmall) [] false false)) ∧
    (cs = [] → StackEndRC_check cs stack = .ok ()) := by
  refine ⟨?_, fun hlt => stackEnd_eq_small cs stack hlt, ?_⟩
  · rcases Nat.lt_or_ge stack.length cs.length with hlt | hge
    · rw [stackEnd_eq_small cs stack hlt]
      simp only [okB, Bool.false_eq_true, false_iff, not_and]
      intro hle
      exact absurd hle (by omega)
    · rw [stackEnd_eq_run cs stack hge, runCheckers_ok_iff]
      simp [hge]
  · rintro rfl
    rw [stackEnd_eq_run [] stack (Nat.zero_le _)]
    rfl

/-! ## C8: the chaining provider -/

/-- C8: with the provider's own resolution yielding processor `f` and the
downstream (`provide_from_next`) resolution yielding `g`, a FIRST chaining
provider returns a routine computing `g(f(x))` and a LAST one `f(g(x))`. -/
theorem chaining_provider_spec {α : Type} (f g : α → α)
    (own downstream : Except CannotProvide (α → α))
    (hf : own = .ok f) (hg : downstream = .ok g) :
    (∃ h, ChainingProvider_apply .first own downstream = .ok h ∧
      ∀ x, h x = g (f x)) ∧
    (∃ h, ChainingProvider_apply .last own downstream = .ok h ∧
      ∀ x, h x = f (g x)) := by
  subst hf; subst hg
  exact ⟨⟨make_chain f g, rfl, fun x => rfl⟩, ⟨make_chain g f, rfl, fun x => rfl⟩⟩

/-- C8 witness at `f = (· + 3)` and `g = (· * 2)` on `Nat`. -/
theorem chaining_provider_spec_witness :
    (∃ h, ChainingProvider_apply Chain.first
        (Except.ok (fun n => n + 3) : Except CannotProvide (Nat → Nat))
        (Except.ok (fun n => n * 2)) = .ok h ∧ ∀ x, h x = (x + 3) * 2) ∧
    (∃ h, ChainingProvider_apply Chain.last
        (Except.ok (fun n => n + 3) : Except CannotProvide (Nat → Nat))
        (Except.ok (fun n => n * 2)) = .ok h ∧ ∀ x, h x = (x * 2) + 3) :=
  chaining_provider_spec (fun n => n + 3) (fun n => n * 2) _ _ rfl rfl

/-! ## C3: sieves -/

/-- C3: the sieve built for an output field with a configured default keeps
(`keep = true`) exactly the values different from the default — the stored
value for `DefaultValue(v)`, a freshly invoked `f()` for `DefaultFactory(f)`,
`f(ownerObject)` for `DefaultFactoryWithSelf(f)`; in particular with
`DefaultValue(0)` the value `0` is omitted and `1` is kept. -/
theorem create_sieve_spec {σ α : Type} [DecidableEq α] (obj : σ) (x v : α)
    (f : Unit → α) (g : σ → α) :
    (∀ s, create_sieve (FieldDefault.value v : FieldDefault σ α) = .ok s →
      (s obj x = false ↔ x = v)) ∧
    (∀ s, create_sieve (FieldDefault.factory f : FieldDefault σ α) = .ok s →
      (s obj x = false ↔ x = f ())) ∧
    (∀ s, create_sieve (FieldDefault.factoryWithSelf g : FieldDefault σ α) = .ok s →
      (s obj x = false ↔ x = g obj)) ∧
    (∀ s, create_sieve (FieldDefault.value (0 : Int) : FieldDefault Unit Int) = .ok s →
      (s () 0 = false ∧ s () 1 = true)) := by
  refine ⟨fun s hs => ?_, fun s hs => ?_, fun s hs => ?_, fun s hs => ?_⟩ <;>
  · simp only [create_sieve, with_default_clause, Except.ok.injEq] at hs
    subst hs
    simp

/-! ## C5: checker construction -/

/-- C5 counterexample: a hint whose normalized origin is abstract but which
normalizes successfully is compiled by `create_req_checker` into an
exact-type checker — not the subclass checker the claim demands (that
behavior lives only in the separate `match_origin` helper). -/
theorem create_req_checker_cex :
    create_req_checker
        (.hint ⟨false, .ok ⟨5, ⟨7, false, true⟩⟩, ⟨7, false, true⟩⟩) =
      .ok (.exactType ⟨5, ⟨7, false, true⟩⟩) ∧
    (create_req_checker
        (.hint ⟨false, .ok ⟨5, ⟨7, false, true⟩⟩, ⟨7, false, true⟩⟩)).map
      RC.isSubclassRC = .ok false ∧
    isabstract (⟨7, false, true⟩ : PyObj) = true :=
  ⟨rfl, rfl, rfl⟩

/-- C5 (amended): identifier strings become exact-field-name checkers, other
strings compiled-regex full-match checkers, compiled patterns wrap as regex
checkers, pre-built checkers pass through unchanged; any other input is a
type-hint specification compiled to an exact-type checker (an exact-origin
checker when the hint is not subscriptable), even for abstract or
protocol-like origins — the subclass-checker behavior belongs to the separate
`match_origin` helper; an unresolvable specification (type variable, failed
normalization) raises a construction-time `ValueError`. -/
theorem create_req_checker_spec :
    (∀ s, pyIsIdentifier s = true →
      create_req_checker (.str s) = .ok (.exactFieldName s)) ∧
    (∀ s, pyIsIdentifier s = false →
      create_req_checker (.str s) = .ok (.reFieldName s)) ∧
    (∀ p, create_req_checker (.pattern p) = .ok (.reFieldName p)) ∧
    (∀ c, create_req_checker (.checker c) = .ok c) ∧
    (∀ t n, t.normalize = .ok n →
      create_req_checker (.hint t) = .ok (.exactType n)) ∧
    (∀ t, t.normalize = .notSubscribed →
      create_req_checker (.hint t) = .ok (.exactOrigin t.asOrigin)) ∧
    (∀ t o, t.normalize = .tv o →
      create_req_checker (.hint t) = .error .cannotCreateChecker) ∧
    (∀ t, t.normalize = .valueError →
      create_req_checker (.hint t) = .error .cannotCreateChecker) ∧
    (∀ t n, t.parametrized = false → t.normalize = .ok n →
      (is_protocol n.origin || isabstract n.origin) = true →
      match_origin t = .ok (.subclass n.origin)) := by
  refine ⟨fun s h => ?_, fun s h => ?_, fun p => rfl, fun c => rfl,
    fun t n h => ?_, fun t h => ?_, fun t o h => ?_, fun t h => ?_,
    fun t n hp h hflag => ?_⟩
  · simp [create_req_checker, h]
  · simp [create_req_checker, h]
  · simp [create_req_checker, create_type_hint_req_checker, h]
  · simp [create_req_checker, create_type_hint_req_checker, h]
  · simp [create_req_checker, create_type_hint_req_checker, h]
  · simp [create_req_checker, create_type_hint_req_checker, h]
  · simp [match_origin, hp, h, hflag]

/-! ## C4: input figure ordering -/

theorem chain'_iff_pairs {α : Type} (R : α → α → Prop) (l : List α) :
    l.Chain' R ↔ ∀ l1 a b l2, l = l1 ++ a :: b :: l2 → R a b := by
  induction l with
  | nil =>
    simp only [List.chain'_nil, true_iff]
    intro l1 a b l2 h
    exact absurd h (by simp)
  | cons x tl ih =>
    constructor
    · intro h l1 a b l2 heq
      cases l1 with
      | nil =>
        simp only [List.nil_append] at heq
        cases heq
        exact (List.chain'_cons.mp h).1
      | cons c l1' =>
        simp only [List.cons_append, List.cons.injEq] at heq
        exact ih.mp h.tail l1' a b l2 heq.2
    · intro hyp
      cases tl with
      | nil => exact List.chain'_singleton x
      | cons y tl2 =>
        refine List.chain'_cons.mpr ⟨hyp [] x y tl2 rfl, ih.mpr ?_⟩
        intro l1 a b l2 heq
        exact hyp (x :: l1) a b l2 (by rw [heq]; rfl)

theorem checkFieldPairs_ok_iff (fields : List InputField) :
    checkFieldPairs fields = .ok () ↔
      fields.Chain' (fun past current =>
        ¬ past.param_kind.value > current.param_kind.value ∧
        ¬ (past.is_optional = true ∧ current.is_required = true ∧
            current.param_kind ≠ ParamKind.kwOnly)) := by
  induction fields with
  | nil => simp [checkFieldPairs]
  | cons a tl ih =>
    cases tl with
    | nil => simp [checkFieldPairs]
    | cons b tl2 =>
      rw [List.chain'_cons]
      by_cases h1 : a.param_kind.value > b.param_kind.value
      · simp [checkFieldPairs, h1]
      · by_cases h2 : a.is_optional = true ∧ b.is_required = true
            ∧ b.param_kind ≠ ParamKind.kwOnly
        · simp [checkFieldPairs, h1, h2]
        · simp [checkFieldPairs, h1, h2, ih]

/-- C4 counterexample: the claim takes "all optional parameters precede
required ones" as the accepted order, so it demands that
`[optional "a", required "b"]` (pos-or-kw, unique names, monotone kinds) be
accepted and `[required "a", optional "b"]` be rejected; the code does the
opposite. -/
theorem input_figure_order_cex :
    InputFigure_validate
        [⟨"a", "a", false, .posOrKw⟩, ⟨"b", "b", true, .posOrKw⟩] .none =
      .error .optionalBeforeRequiredField ∧
    InputFigure_validate
        [⟨"a", "a", true, .posOrKw⟩, ⟨"b", "b", false, .posOrKw⟩] .none = .ok () := by
  constructor <;> rfl

/-- C4 (amended): input-figure construction requires every required
non-keyword-only parameter to precede all optional ones: a field sequence
with an optional field directly before a required, non-keyword-only one
raises a construction-time `ValueError`, and a field sequence with unique
field and parameter names, monotone parameter kinds and no such adjacent
violation is accepted. -/
theorem input_figure_order_spec (fields : List InputField) :
    ((∃ l1 past current l2, fields = l1 ++ past :: current :: l2 ∧
        past.is_optional = true ∧ current.is_required = true ∧
        current.param_kind ≠ ParamKind.kwOnly) →
      ∀ extra, ∃ e, InputFigure_validate fields extra = .error e) ∧
    ((fields.map InputField.name).Nodup →
      (fields.map InputField.param_name).Nodup →
      fields.Chain' (fun past current =>
        past.param_kind.value ≤ current.param_kind.value) →
      (∀ l1 past current l2, fields = l1 ++ past :: current :: l2 →
        past.is_optional = true → current.is_required = true →
        current.param_kind = ParamKind.kwOnly) →
      InputFigure_validate fields .none = .ok ()) := by
  constructor
  · rintro ⟨l1, p, c, l2, heq, hopt, hreq, hkind⟩ extra
    rcases hb : BaseFigure_validate fields extra with e | u
    · exact ⟨e, by simp [InputFigure_validate, hb, except_bind_error]⟩
    · by_cases hpn : ((fields.map InputField.param_name).dedup.length ≠ fields.length)
      · exact ⟨.duplicateParamNames (fields.map InputField.param_name).dedup,
          by simp [InputFigure_validate, hb, hpn, except_bind_ok]⟩
      · rcases hcf : checkFieldPairs fields with e | u2
        · exact ⟨e, by simp [InputFigure_validate, hb, hpn, hcf, except_bind_ok]⟩
        · exfalso
          have : checkFieldPairs fields = .ok () := by
            cases u2
            exact hcf
          have hch := (checkFieldPairs_ok_iff fields).mp this
          have := (chain'_iff_pairs _ fields).mp hch l1 p c l2 heq
          exact this.2 ⟨hopt, hreq, hkind⟩
  · intro hn hpn hmono hnoviol
    have hnd : ((fields.map InputField.name).dedup.length = fields.length) := by
      rw [List.Nodup.dedup hn, List.length_map]
    have hpd : ((fields.map InputField.param_name).dedup.length = fields.length) := by
      rw [List.Nodup.dedup hpn, List.length_map]
    have hbase : BaseFigure_validate fields .none = .ok () := by
      simp [BaseFigure_validate, hnd]
    have hcf : checkFieldPairs fields = .ok () := by
      rw [checkFieldPairs_ok_iff]
      rw [chain'_iff_pairs]
      intro l1 a b l2 heq
      refine ⟨?_, ?_⟩
      · have := (chain'_iff_pairs _ fields).mp hmono l1 a b l2 heq
        omega
      · rintro ⟨ho, hr, hk⟩
        exact hk (hnoviol l1 a b l2 heq ho hr)
    simp [InputFigure_validate, hbase, hpd, hcf, except_bind_ok]

/-! ## C1: duplicate destination paths -/

theorem mappedFields_cons (p : KeyPath) (f : AnyField) (po : Option KeyPath)
    (rest : List FieldAndPath) :
    mappedFields p ((f, po) :: rest) =
      if po = some p then f :: mappedFields p rest else mappedFields p rest := by
  by_cases h : po = some p <;> simp [mappedFields, List.filterMap_cons, h]

theorem findGroup_addToGroup (g : List (KeyPath × List AnyField)) (q p : KeyPath)
    (f : AnyField) :
    findGroup p (addToGroup g q f) =
      if q = p then findGroup p g ++ [f] else findGroup p g := by
  induction g with
  | nil => by_cases h : q = p <;> simp [addToGroup, findGroup, h]
  | cons e rest ih =>
    rcases e with ⟨q2, fs⟩
    by_cases hq : q2 = q
    · subst hq
      by_cases hp : q2 = p <;> simp [addToGroup, findGroup, hp]
    · by_cases hp : q2 = p
      · subst hp
        have hqp : q ≠ q2 := fun h => hq h.symm
        simp [addToGroup, findGroup, hq, hqp]
      · simp [addToGroup, findGroup, hq, hp, ih]

theorem paths_to_fields_go_findGroup (ftp : List FieldAndPath)
    (acc : List (KeyPath × List AnyField)) (p : KeyPath) :
    findGroup p (ftp.foldl (fun groups fp =>
        match fp.2 with
        | none => groups
        | some path => addToGroup groups path fp.1) acc) =
      findGroup p acc ++ mappedFields p ftp := by
  induction ftp generalizing acc with
  | nil => simp [mappedFields]
  | cons fp rest ih =>
    rcases fp with ⟨f, po⟩
    cases po with
    | none =>
      rw [List.foldl_cons]
      simp only []
      rw [ih acc, mappedFields_cons]
      simp
    | some path =>
      rw [List.foldl_cons]
      simp only []
      rw [ih (addToGroup acc path f), mappedFields_cons, findGroup_addToGroup]
      by_cases h : path = p <;> simp [h]

theorem findGroup_paths_to_fields (ftp : List FieldAndPath) (p : KeyPath) :
    findGroup p (paths_to_fields ftp) = mappedFields p ftp := by
  have h := paths_to_fields_go_findGroup ftp [] p
  simpa [paths_to_fields, findGroup] using h

theorem addToGroup_keys (g : List (KeyPath × List AnyField)) (q : KeyPath)
    (f : AnyField) :
    (addToGroup g q f).map Prod.fst =
      if q ∈ g.map Prod.fst then g.map Prod.fst else g.map Prod.fst ++ [q] := by
  induction g with
  | nil => simp [addToGroup]
  | cons e rest ih =>
    rcases e with ⟨q2, fs⟩
    by_cases hq : q2 = q
    · subst hq
      simp [addToGroup]
    · rw [show addToGroup ((q2, fs) :: rest) q f
          = (q2, fs) :: addToGroup rest q f by simp [addToGroup, hq]]
      by_cases h2 : q ∈ rest.map Prod.fst
      · have hmem : q ∈ ((q2, fs) :: rest).map Prod.fst := by simp [h2]
        rw [if_pos hmem]
        simp only [List.map_cons]
        rw [ih, if_pos h2]
      · have hmem : ¬ q ∈ ((q2, fs) :: rest).map Prod.fst := by
          simp only [List.map_cons, List.mem_cons]
          rintro (h | h)
          · exact hq h.symm
          · exact h2 h
        rw [if_neg hmem]
        simp only [List.map_cons]
        rw [ih, if_neg h2]
        simp

theorem addToGroup_keys_nodup (g : List (KeyPath × List AnyField)) (q : KeyPath)
    (f : AnyField) (h : (g.map Prod.fst).Nodup) :
    ((addToGroup g q f).map Prod.fst).Nodup := by
  rw [addToGroup_keys]
  by_cases hq : q ∈ g.map Prod.fst
  · simpa [hq]
  · rw [if_neg hq, List.nodup_append]
    exact ⟨h, List.nodup_singleton q,
      fun a ha hb => by simp at hb; subst hb; exact hq ha⟩

theorem addToGroup_values_ne_nil (g : List (KeyPath × List AnyField)) (q : KeyPath)
    (f : AnyField) (h : ∀ e ∈ g, e.2 ≠ []) :
    ∀ e ∈ addToGroup g q f, e.2 ≠ [] := by
  induction g with
  | nil => simp [addToGroup]
  | cons e2 rest ih =>
    rcases e2 with ⟨q2, fs⟩
    by_cases hq : q2 = q
    · subst hq
      intro e he
      rcases List.mem_cons.mp (by simpa [addToGroup] using he) with rfl | hmem
      · simp
      · exact h e (List.mem_cons_of_mem _ hmem)
    · intro e he
      rcases List.mem_cons.mp (by simpa [addToGroup, hq] using he) with rfl | hmem
      · exact h (q2, fs) (List.mem_cons_self _ _)
      · exact ih (fun e2 he2 => h e2 (List.mem_cons_of_mem _ he2)) e hmem

theorem paths_to_fields_inv (ftp : List FieldAndPath) :
    ((paths_to_fields ftp).map Prod.fst).Nodup ∧
      ∀ e ∈ paths_to_fields ftp, e.2 ≠ [] := by
  suffices h : ∀ acc : List (KeyPath × List AnyField), (acc.map Prod.fst).Nodup →
      (∀ e ∈ acc, e.2 ≠ []) →
      ((ftp.foldl (fun groups fp =>
          match fp.2 with
          | none => groups
          | some path => addToGroup groups path fp.1) acc).map Prod.fst).Nodup ∧
        ∀ e ∈ ftp.foldl (fun groups fp =>
          match fp.2 with
          | none => groups
          | some path => addToGroup groups path fp.1) acc, e.2 ≠ [] by
    exact h [] (by simp) (by simp)
  induction ftp with
  | nil => intro acc h1 h2; exact ⟨h1, h2⟩
  | cons fp rest ih =>
    intro acc h1 h2
    rcases fp with ⟨f, po⟩
    cases po with
    | none => exact ih acc h1 h2
    | some path =>
      exact ih (addToGroup acc path f) (addToGroup_keys_nodup acc path f h1)
        (addToGroup_values_ne_nil acc path f h2)

theorem findGroup_of_mem (g : List (KeyPath × List AnyField)) (p : KeyPath)
    (fs : List AnyField) (hnd : (g.map Prod.fst).Nodup) (hmem : (p, fs) ∈ g) :
    findGroup p g = fs := by
  induction g with
  | nil => simp at hmem
  | cons e rest ih =>
    rcases e with ⟨q, fs0⟩
    rcases List.mem_cons.mp hmem with heq | hmem2
    · injection heq with h1 h2
      subst h1; subst h2
      simp [findGroup]
    · have hnd2 : q ∉ rest.map Prod.fst ∧ (rest.map Prod.fst).Nodup := by
        have h := hnd
        rw [List.map_cons, List.nodup_cons] at h
        exact h
      have hq : q ≠ p := by
        intro hqp
        apply hnd2.1
        rw [hqp]
        exact List.mem_map_of_mem Prod.fst hmem2
      rw [show findGroup p ((q, fs0) :: rest) = findGroup p rest by
        simp [findGroup, hq]]
      exact ih hnd2.2 hmem2

theorem mem_of_findGroup (g : List (KeyPath × List AnyField)) (p : KeyPath)
    (hne : findGroup p g ≠ []) : (p, findGroup p g) ∈ g := by
  induction g with
  | nil => simp [findGroup] at hne
  | cons e rest ih =>
    rcases e with ⟨q, fs⟩
    by_cases h : q = p
    · subst h
      simp [findGroup]
    · rw [show findGroup p ((q, fs) :: rest) = findGroup p rest by
        simp [findGroup, h]] at hne ⊢
      exact List.mem_cons_of_mem _ (ih hne)

theorem mem_paths_to_fields_iff (ftp : List FieldAndPath) (p : KeyPath)
    (fs : List AnyField) :
    (p, fs) ∈ paths_to_fields ftp ↔ (fs = mappedFields p ftp ∧ fs ≠ []) := by
  constructor
  · intro hmem
    have hne := (paths_to_fields_inv ftp).2 _ hmem
    have hfg := findGroup_of_mem _ p fs (paths_to_fields_inv ftp).1 hmem
    rw [findGroup_paths_to_fields] at hfg
    exact ⟨hfg.symm, hne⟩
  · rintro ⟨rfl, hne⟩
    have := mem_of_findGroup (paths_to_fields ftp) p
      (by rw [findGroup_paths_to_fields]; exact hne)
    rwa [findGroup_paths_to_fields] at this

theorem mem_dupGroups_iff (ftp : List FieldAndPath) (q : KeyPath)
    (ids : List String) :
    (q, ids) ∈ dupGroups ftp ↔
      (ids = (mappedFields q ftp).map AnyField.id ∧
        2 ≤ (mappedFields q ftp).length) := by
  rw [dupGroups, List.mem_filterMap]
  constructor
  · rintro ⟨e, he, hsome⟩
    rcases e with ⟨p0, fs0⟩
    by_cases hlen : 1 < fs0.length
    · rw [if_pos hlen] at hsome
      injection hsome with h1
      injection h1 with hp hids
      simp only at hp hids
      rw [hp] at he
      have hfs := ((mem_paths_to_fields_iff ftp q fs0).mp he).1
      subst hfs
      exact ⟨hids.symm, by omega⟩
    · rw [if_neg hlen] at hsome
      exact absurd hsome (by simp)
  · rintro ⟨hids, hlen⟩
    refine ⟨(q, mappedFields q ftp), ?_, ?_⟩
    · rw [mem_paths_to_fields_iff]
      refine ⟨rfl, fun hnil => ?_⟩
      rw [hnil] at hlen
      simp at hlen
    · show (if 1 < (mappedFields q ftp).length
          then some (q, (mappedFields q ftp).map AnyField.id) else none) = some (q, ids)
      rw [if_pos (by omega), hids]

theorem mappedFields_length_of_dup (ftp : List FieldAndPath) (p : KeyPath)
    (l1 l2 l3 : List FieldAndPath) (f1 f2 : AnyField)
    (heq : ftp = l1 ++ (f1, some p) :: l2 ++ (f2, some p) :: l3) :
    2 ≤ (mappedFields p ftp).length := by
  subst heq
  simp [mappedFields, List.filterMap_append, List.filterMap_cons]
  omega

theorem exists_single_of_mapped (ftp : List FieldAndPath) (p : KeyPath)
    (h : 1 ≤ (mappedFields p ftp).length) :
    ∃ l1 f l2, ftp = l1 ++ (f, some p) :: l2 := by
  induction ftp with
  | nil => simp [mappedFields] at h
  | cons fp rest ih =>
    rcases fp with ⟨f, po⟩
    by_cases hpo : po = some p
    · exact ⟨[], f, rest, by simp [hpo]⟩
    · rw [mappedFields_cons, if_neg hpo] at h
      obtain ⟨l1, f2, l2, rfl⟩ := ih h
      exact ⟨(f, po) :: l1, f2, l2, rfl⟩

theorem hasDup_of_mapped_two (ftp : List FieldAndPath) (p : KeyPath)
    (h : 2 ≤ (mappedFields p ftp).length) : HasDupPaths ftp := by
  induction ftp with
  | nil => simp [mappedFields] at h
  | cons fp rest ih =>
    rcases fp with ⟨f, po⟩
    by_cases hpo : po = some p
    · subst hpo
      rw [mappedFields_cons, if_pos rfl, List.length_cons] at h
      obtain ⟨l1, f2, l2, rfl⟩ := exists_single_of_mapped rest p (by omega)
      exact ⟨p, [], f, l1, f2, l2, rfl⟩
    · rw [mappedFields_cons, if_neg hpo] at h
      obtain ⟨p2, l1, f1, l2, f2, l3, heq⟩ := ih h
      exact ⟨p2, (f, po) :: l1, f1, l2, f2, l3, by simp [heq]⟩

theorem dupGroups_eq_nil (ftp : List FieldAndPath) (h : ¬ HasDupPaths ftp) :
    dupGroups ftp = [] := by
  rw [dupGroups, List.filterMap_eq_nil_iff]
  intro e he
  rcases e with ⟨p, fs⟩
  have hfs := (mem_paths_to_fields_iff ftp p fs).mp he
  have hle : ¬ 1 < fs.length := by
    intro hlt
    apply h
    apply hasDup_of_mapped_two ftp p
    rw [← hfs.1]
    omega
  simp [hle]

theorem dupGroups_ne_nil_of_hasDup (ftp : List FieldAndPath)
    (h : HasDupPaths ftp) : dupGroups ftp ≠ [] := by
  obtain ⟨p, l1, f1, l2, f2, l3, heq⟩ := h
  have h2 := mappedFields_length_of_dup ftp p l1 l2 l3 f1 f2 heq
  exact List.ne_nil_of_mem ((mem_dupGroups_iff ftp p _).mpr ⟨rfl, h2⟩)

theorem validate_structure_eq_of_dups (ftp : List FieldAndPath)
    (h : dupGroups ftp ≠ []) :
    validate_structure ftp =
      .error (.mk (some (.pathsPointedToSeveralFields (dupGroups ftp))) [] true true) := by
  simp [validate_structure, h]

theorem validate_structure_error_flags (ftp : List FieldAndPath) (e : CannotProvide)
    (h : validate_structure ftp = .error e) :
    e.is_terminal = true ∧ e.is_demonstrative = true := by
  simp only [validate_structure] at h
  split at h
  · injection h with h2
    subst h2
    exact ⟨rfl, rfl⟩
  · split at h
    · injection h with h2
      subst h2
      exact ⟨rfl, rfl⟩
    · split at h
      · injection h with h2
        subst h2
        exact ⟨rfl, rfl⟩
      · simp at h

theorem get_paths_to_list_go_error_flags (L : List SubPath)
    (lists : List (KeyPath × List Int)) (dicts : List KeyPath) (e : CannotProvide)
    (h : get_paths_to_list_go lists dicts L = .error e) :
    e.is_terminal = true ∧ e.is_demonstrative = true := by
  induction L generalizing lists dicts with
  | nil => simp [get_paths_to_list_go] at h
  | cons pr rest ih =>
    rcases pr with ⟨sp, key⟩
    cases key with
    | idx i =>
      simp only [get_paths_to_list_go] at h
      by_cases hd : sp ∈ dicts
      · rw [if_pos hd] at h
        injection h with h2
        subst h2
        exact ⟨rfl, rfl⟩
      · rw [if_neg hd] at h
        exact ih _ _ h
    | str s =>
      simp only [get_paths_to_list_go] at h
      by_cases hd : sp ∈ lists.map Prod.fst
      · rw [if_pos hd] at h
        injection h with h2
        subst h2
        exact ⟨rfl, rfl⟩
      · rw [if_neg hd] at h
        exact ih _ _ h

theorem make_paths_to_leaves_eq {γ : Type} (ftp : List FieldAndPath)
    (fc : String → γ) (gf : KeyPath → γ) :
    make_paths_to_leaves ftp fc gf =
      match get_paths_to_list ((leavesBase ftp fc).map Prod.fst) with
      | .error e => .error e
      | .ok ptl => .ok (ptl.foldl (fun m e => fillGapsOne gf m e.1 e.2)
          (leavesBase ftp fc)) := by
  rcases hg : get_paths_to_list ((leavesBase ftp fc).map Prod.fst) with e | ptl <;>
    simp [make_paths_to_leaves, hg, except_bind_error, except_bind_ok]

theorem make_paths_to_leaves_error_flags {γ : Type} (ftp : List FieldAndPath)
    (fc : String → γ) (gf : KeyPath → γ) (e : CannotProvide)
    (h : make_paths_to_leaves ftp fc gf = .error e) :
    e.is_terminal = true ∧ e.is_demonstrative = true := by
  rw [make_paths_to_leaves_eq] at h
  rcases hg : get_paths_to_list ((leavesBase ftp fc).map Prod.fst) with e2 | ptl
  · rw [hg] at h
    injection h with h2
    subst h2
    rw [get_paths_to_list] at hg
    exact get_paths_to_list_go_error_flags _ [] [] _ hg
  · rw [hg] at h
    simp at h

theorem make_inp_structure_core_eq (ftp : List FieldAndPath) :
    make_inp_structure_core ftp =
      (if (ftp.filterMap (fun fp =>
          if fp.2 = none ∧ fp.1.is_required = true then some fp.1.id else none)) ≠ [] then
        .error (.mk (some (.requiredFieldsSkipped (ftp.filterMap (fun fp =>
          if fp.2 = none ∧ fp.1.is_required = true then some fp.1.id else none)))) [] true true)
      else
        match make_paths_to_leaves ftp LeafInpCrown.fieldCrown fill_input_gap with
        | .error e => .error e
        | .ok m =>
          match validate_structure ftp with
          | .error e => .error e
          | .ok _ => .ok m) := by
  by_cases hs : (ftp.filterMap (fun fp =>
      if fp.2 = none ∧ fp.1.is_required = true then some fp.1.id else none)) ≠ []
  · simp [make_inp_structure_core, hs]
  · rcases hm : make_paths_to_leaves ftp LeafInpCrown.fieldCrown fill_input_gap with e | m
    · simp [make_inp_structure_core, hs, hm, except_bind_error]
    · rcases hv : validate_structure ftp with e | u
      · simp [make_inp_structure_core, hs, hm, hv, except_bind_ok, except_bind_error]
      · cases u
        simp [make_inp_structure_core, hs, hm, hv, except_bind_ok]

theorem make_out_structure_core_eq (ftp : List FieldAndPath) :
    make_out_structure_core ftp =
      (match make_paths_to_leaves ftp LeafOutCrown.fieldCrown fill_output_gap with
      | .error e => .error e
      | .ok m =>
        match validate_structure ftp with
        | .error e => .error e
        | .ok _ => .ok m) := by
  rcases hm : make_paths_to_leaves ftp LeafOutCrown.fieldCrown fill_output_gap with e | m
  · simp [make_out_structure_core, hm, except_bind_error]
  · rcases hv : validate_structure ftp with e | u
    · simp [make_out_structure_core, hm, hv, except_bind_ok, except_bind_error]
    · cases u
      simp [make_out_structure_core, hm, hv, except_bind_ok]

theorem make_inp_structure_core_fails (ftp : List FieldAndPath)
    (hv : ∀ u : Unit, validate_structure ftp ≠ .ok u) :
    ∃ e, make_inp_structure_core ftp = .error e ∧
      e.is_terminal = true ∧ e.is_demonstrative = true := by
  rw [make_inp_structure_core_eq]
  by_cases hs : (ftp.filterMap (fun fp =>
      if fp.2 = none ∧ fp.1.is_required = true then some fp.1.id else none)) ≠ []
  · rw [if_pos hs]
    exact ⟨_, rfl, rfl, rfl⟩
  · rw [if_neg hs]
    rcases hm : make_paths_to_leaves ftp LeafInpCrown.fieldCrown fill_input_gap with e | m
    · have hfl := make_paths_to_leaves_error_flags _ _ _ _ hm
      exact ⟨e, rfl, hfl.1, hfl.2⟩
    · rcases hvv : validate_structure ftp with e | u
      · have hfl := validate_structure_error_flags _ _ hvv
        exact ⟨e, rfl, hfl.1, hfl.2⟩
      · exact absurd hvv (hv u)

theorem make_out_structure_core_fails (ftp : List FieldAndPath)
    (hv : ∀ u : Unit, validate_structure ftp ≠ .ok u) :
    ∃ e, make_out_structure_core ftp = .error e ∧
      e.is_terminal = true ∧ e.is_demonstrative = true := by
  rw [make_out_structure_core_eq]
  rcases hm : make_paths_to_leaves ftp LeafOutCrown.fieldCrown fill_output_gap with e | m
  · have hfl := make_paths_to_leaves_error_flags _ _ _ _ hm
    exact ⟨e, rfl, hfl.1, hfl.2⟩
  · rcases hvv : validate_structure ftp with e | u
    · have hfl := validate_structure_error_flags _ _ hvv
      exact ⟨e, rfl, hfl.1, hfl.2⟩
    · exact absurd hvv (hv u)

/-- C1: two distinct fields mapped to the same destination path make the
duplicate check of `_validate_structure` fail with a terminal, demonstrative
`CannotProvide` whose message carries exactly the colliding paths, each with
all its fields' ids in mapping order, and make both structure makers fail
with a terminal, demonstrative error; with no two fields sharing a path the
duplicate check never fails (any remaining validation failure carries a
different message). -/
theorem validate_structure_duplicates_spec (ftp : List FieldAndPath) :
    (HasDupPaths ftp →
      (∃ d, validate_structure ftp =
          .error (.mk (some (.pathsPointedToSeveralFields d)) [] true true) ∧
        ∀ q ids, ((q, ids) ∈ d ↔
          (ids = (mappedFields q ftp).map AnyField.id ∧
            2 ≤ (mappedFields q ftp).length))) ∧
      (∃ e, make_inp_structure_core ftp = .error e ∧
        e.is_terminal = true ∧ e.is_demonstrative = true) ∧
      (∃ e, make_out_structure_core ftp = .error e ∧
        e.is_terminal = true ∧ e.is_demonstrative = true)) ∧
    (¬ HasDupPaths ftp →
      ∀ e, validate_structure ftp = .error e →
        ∀ d, e.message ≠ some (.pathsPointedToSeveralFields d)) := by
  constructor
  · intro hdup
    have hne := dupGroups_ne_nil_of_hasDup ftp hdup
    have hval := validate_structure_eq_of_dups ftp hne
    refine ⟨⟨dupGroups ftp, hval, fun q ids => mem_dupGroups_iff ftp q ids⟩, ?_, ?_⟩
    · exact make_inp_structure_core_fails ftp (fun u hu => by rw [hval] at hu; cases hu)
    · exact make_out_structure_core_fails ftp (fun u hu => by rw [hval] at hu; cases hu)
  · intro hnodup e hval d
    have hnil := dupGroups_eq_nil ftp hnodup
    simp only [validate_structure, hnil] at hval
    rw [if_neg (fun h => h rfl)] at hval
    split at hval
    · first
      | (injection hval with h2
         subst h2
         simp [CannotProvide.message])
      | simp at hval
    · split at hval
      · first
        | (injection hval with h2
           subst h2
           simp [CannotProvide.message])
        | simp at hval
      · first
        | (injection hval with h2
           subst h2
           simp [CannotProvide.message])
        | simp at hval

/-! ## C2: list-index gap filling -/

theorem append_singleton_inj {p q : KeyPath} {a b : Key}
    (h : p ++ [a] = q ++ [b]) : p = q ∧ a = b := by
  obtain ⟨h1, h2⟩ := List.append_inj' h rfl
  exact ⟨h1, by simpa using h2⟩

theorem lookupKP_dictInsert_self {γ : Type} (m : List (KeyPath × γ))
    (k : KeyPath) (v : γ) :
    lookupKP k (dictInsert m k v) = some v := by
  induction m with
  | nil => simp [dictInsert, lookupKP]
  | cons e rest ih =>
    rcases e with ⟨k2, v2⟩
    by_cases h : k2 = k <;> simp [dictInsert, lookupKP, h, ih]

theorem lookupKP_dictInsert_ne {γ : Type} (m : List (KeyPath × γ))
    (k k2 : KeyPath) (v : γ) (h : k2 ≠ k) :
    lookupKP k (dictInsert m k2 v) = lookupKP k m := by
  induction m with
  | nil => simp [dictInsert, lookupKP, h]
  | cons e rest ih =>
    rcases e with ⟨k3, v3⟩
    by_cases h3 : k3 = k2
    · subst h3
      simp [dictInsert, lookupKP, h]
    · simp [dictInsert, lookupKP, h3, ih]

theorem mem_pyRangeInt (n i : Int) : i ∈ pyRangeInt n ↔ 0 ≤ i ∧ i < n := by
  simp only [pyRangeInt, List.mem_map, List.mem_range]
  constructor
  · rintro ⟨j, hj, rfl⟩
    show 0 ≤ (j : Int) ∧ (j : Int) < n
    omega
  · rintro ⟨h0, hn⟩
    refine ⟨i.toNat, by omega, ?_⟩
    show ((i.toNat : Nat) : Int) = i
    omega

theorem pyRangeInt_nodup (n : Int) : (pyRangeInt n).Nodup := by
  rw [pyRangeInt]
  exact List.Nodup.map (fun a b h => by omega) (List.nodup_range _)

theorem fillFold_preserve {γ : Type} (gf : KeyPath → γ) (path : KeyPath)
    (indexes : List Int) (L : List Int) (m : List (KeyPath × γ)) (t : KeyPath)
    (ht : ∀ i ∈ L, ¬ i ∈ indexes → t ≠ path ++ [Key.idx i]) :
    lookupKP t (L.foldl (fun acc i =>
      if i ∈ indexes then acc
      else dictInsert acc (path ++ [Key.idx i]) (gf (path ++ [Key.idx i]))) m) =
      lookupKP t m := by
  induction L generalizing m with
  | nil => rfl
  | cons j rest ih =>
    simp only [List.foldl_cons]
    by_cases hj : j ∈ indexes
    · rw [if_pos hj]
      exact ih _ (fun i hi => ht i (List.mem_cons_of_mem _ hi))
    · rw [if_neg hj]
      rw [ih _ (fun i hi => ht i (List.mem_cons_of_mem _ hi))]
      exact lookupKP_dictInsert_ne _ _ _ _
        (fun he => ht j (List.mem_cons_self _ _) hj he.symm)

theorem fillFold_lookup_of_mem {γ : Type} (gf : KeyPath → γ) (path : KeyPath)
    (indexes : List Int) (L : List Int) (m : List (KeyPath × γ)) (i : Int)
    (hL : L.Nodup) (hiL : i ∈ L) (hni : ¬ i ∈ indexes) :
    lookupKP (path ++ [Key.idx i]) (L.foldl (fun acc j =>
      if j ∈ indexes then acc
      else dictInsert acc (path ++ [Key.idx j]) (gf (path ++ [Key.idx j]))) m) =
      some (gf (path ++ [Key.idx i])) := by
  induction L generalizing m with
  | nil => simp at hiL
  | cons j rest ih =>
    simp only [List.foldl_cons]
    rcases List.mem_cons.mp hiL with rfl | hrest
    · rw [if_neg hni]
      rw [fillFold_preserve gf path indexes rest _ _ ?ht]
      · exact lookupKP_dictInsert_self _ _ _
      case ht =>
        intro k hk hnk heq
        have hik : i = k := by
          have h2 := (append_singleton_inj heq).2
          injection h2
        exact (List.nodup_cons.mp hL).1 (by rw [hik]; exact hk)
    · by_cases hj : j ∈ indexes
      · rw [if_pos hj]
        exact ih _ (List.Nodup.of_cons hL) hrest
      · rw [if_neg hj]
        exact ih _ (List.Nodup.of_cons hL) hrest

theorem fillGapsOne_lookup_gap {γ : Type} (gf : KeyPath → γ)
    (m : List (KeyPath × γ)) (path : KeyPath) (indexes : List Int) (i : Int)
    (hmem : i ∈ pyRangeInt (pyMaxInt indexes)) (hni : ¬ i ∈ indexes) :
    lookupKP (path ++ [Key.idx i]) (fillGapsOne gf m path indexes) =
      some (gf (path ++ [Key.idx i])) :=
  fillFold_lookup_of_mem gf path indexes _ m i (pyRangeInt_nodup _) hmem hni

theorem fillGapsOne_preserve_other {γ : Type} (gf : KeyPath → γ)
    (m : List (KeyPath × γ)) (q path : KeyPath) (indexes : List Int) (i : Int)
    (hne : q ≠ path) :
    lookupKP (path ++ [Key.idx i]) (fillGapsOne gf m q indexes) =
      lookupKP (path ++ [Key.idx i]) m := by
  apply fillFold_preserve
  intro j hj hnj heq
  exact hne (append_singleton_inj heq).1.symm

theorem ptl_fold_preserve {γ : Type} (gf : KeyPath → γ)
    (B : List (KeyPath × List Int)) (m : List (KeyPath × γ)) (p : KeyPath)
    (i : Int) (hB : ∀ e ∈ B, e.1 ≠ p) :
    lookupKP (p ++ [Key.idx i])
        (B.foldl (fun acc e => fillGapsOne gf acc e.1 e.2) m) =
      lookupKP (p ++ [Key.idx i]) m := by
  induction B generalizing m with
  | nil => rfl
  | cons e rest ih =>
    simp only [List.foldl_cons]
    rw [ih _ (fun e2 he2 => hB e2 (List.mem_cons_of_mem _ he2))]
    exact fillGapsOne_preserve_other gf m e.1 p e.2 i (hB e (List.mem_cons_self _ _))

theorem ptl_fold_lookup_gap {γ : Type} (gf : KeyPath → γ)
    (ptl : List (KeyPath × List Int)) (m : List (KeyPath × γ)) (p : KeyPath)
    (S : List Int) (i : Int)
    (hnd : (ptl.map Prod.fst).Nodup) (hmem : (p, S) ∈ ptl)
    (hrange : i ∈ pyRangeInt (pyMaxInt S)) (hni : ¬ i ∈ S) :
    lookupKP (p ++ [Key.idx i])
        (ptl.foldl (fun acc e => fillGapsOne gf acc e.1 e.2) m) =
      some (gf (p ++ [Key.idx i])) := by
  induction ptl generalizing m with
  | nil => simp at hmem
  | cons e rest ih =>
    simp only [List.foldl_cons]
    rcases List.mem_cons.mp hmem with heq | hrest
    · subst heq
      have hnp : ¬ p ∈ rest.map Prod.fst := by
        rw [List.map_cons, List.nodup_cons] at hnd
        exact hnd.1
      rw [ptl_fold_preserve gf rest _ p i ?hrest]
      · exact fillGapsOne_lookup_gap gf m p S i hrange hni
      case hrest =>
        intro e2 he2 heq2
        exact hnp (heq2 ▸ List.mem_map_of_mem Prod.fst he2)
    · have hnd2 : (rest.map Prod.fst).Nodup := by
        rw [List.map_cons, List.nodup_cons] at hnd
        exact hnd.2
      exact ih _ hnd2 hrest

theorem addListIdx_keys (lists : List (KeyPath × List Int)) (p : KeyPath) (i : Int) :
    (addListIdx lists p i).map Prod.fst =
      if p ∈ lists.map Prod.fst then lists.map Prod.fst
      else lists.map Prod.fst ++ [p] := by
  induction lists with
  | nil => simp [addListIdx]
  | cons e rest ih =>
    rcases e with ⟨q, s⟩
    by_cases hq : q = p
    · subst hq
      simp [addListIdx]
    · rw [show addListIdx ((q, s) :: rest) p i
          = (q, s) :: addListIdx rest p i by simp [addListIdx, hq]]
      by_cases h2 : p ∈ rest.map Prod.fst
      · have hmem : p ∈ ((q, s) :: rest).map Prod.fst := by simp [h2]
        rw [if_pos hmem]
        simp only [List.map_cons]
        rw [ih, if_pos h2]
      · have hmem : ¬ p ∈ ((q, s) :: rest).map Prod.fst := by
          simp only [List.map_cons, List.mem_cons]
          rintro (h | h)
          · exact hq h.symm
          · exact h2 h
        rw [if_neg hmem]
        simp only [List.map_cons]
        rw [ih, if_neg h2]
        simp

theorem addListIdx_keys_nodup (lists : List (KeyPath × List Int)) (p : KeyPath)
    (i : Int) (h : (lists.map Prod.fst).Nodup) :
    ((addListIdx lists p i).map Prod.fst).Nodup := by
  rw [addListIdx_keys]
  by_cases hp : p ∈ lists.map Prod.fst
  · simpa [hp]
  · rw [if_neg hp, List.nodup_append]
    exact ⟨h, List.nodup_singleton p,
      fun a ha hb => by simp at hb; subst hb; exact hp ha⟩

theorem get_paths_to_list_go_keys_nodup (L : List SubPath)
    (lists : List (KeyPath × List Int)) (dicts : List KeyPath)
    (out : List (KeyPath × List Int))
    (hnd : (lists.map Prod.fst).Nodup)
    (h : get_paths_to_list_go lists dicts L = .ok out) :
    (out.map Prod.fst).Nodup := by
  induction L generalizing lists dicts with
  | nil =>
    simp only [get_paths_to_list_go] at h
    injection h with h2
    exact h2 ▸ hnd
  | cons pr rest ih =>
    rcases pr with ⟨sp, key⟩
    cases key with
    | idx i =>
      simp only [get_paths_to_list_go] at h
      by_cases hd : sp ∈ dicts
      · rw [if_pos hd] at h
        cases h
      · rw [if_neg hd] at h
        exact ih _ _ (addListIdx_keys_nodup lists sp i hnd) h
    | str s =>
      simp only [get_paths_to_list_go] at h
      by_cases hd : sp ∈ lists.map Prod.fst
      · rw [if_pos hd] at h
        cases h
      · rw [if_neg hd] at h
        exact ih _ _ hnd h

/-- C2: for every parent path with mapped list indices, every nonnegative
index strictly below the maximum that is not itself mapped gets an explicit
placeholder leaf; on the concrete instance with fields at indices `{0, 2}`
under `()` the input and output makers produce a placeholder at index `1`
(absent-value crown and `DefaultValue(None)` crown respectively), and the
list crown assembled from the parent's children has `list_len = 3`. -/
theorem gap_fill_spec :
    (∀ (γ : Type) (ftp : List FieldAndPath) (fc : String → γ) (gf : KeyPath → γ)
      (ptl : List (KeyPath × List Int)) (p : KeyPath) (S : List Int) (i : Int),
      get_paths_to_list ((leavesBase ftp fc).map Prod.fst) = .ok ptl →
      (p, S) ∈ ptl → 0 ≤ i → i < pyMaxInt S → ¬ i ∈ S →
      ∃ m, make_paths_to_leaves ftp fc gf = .ok m ∧
        lookupKP (p ++ [Key.idx i]) m = some (gf (p ++ [Key.idx i]))) ∧
    (make_paths_to_leaves
        [(⟨"f0", true⟩, some [Key.idx 0]), (⟨"f2", true⟩, some [Key.idx 2])]
        LeafInpCrown.fieldCrown fill_input_gap =
      .ok [([Key.idx 0], .fieldCrown "f0"), ([Key.idx 2], .fieldCrown "f2"),
        ([Key.idx 1], .noneCrown)] ∧
      make_paths_to_leaves
        [(⟨"f0", true⟩, some [Key.idx 0]), (⟨"f2", true⟩, some [Key.idx 2])]
        LeafOutCrown.fieldCrown fill_output_gap =
      .ok [([Key.idx 0], .fieldCrown "f0"), ([Key.idx 2], .fieldCrown "f2"),
        ([Key.idx 1], .noneCrown .defaultValueNone)] ∧
      (∀ m, make_paths_to_leaves
          [(⟨"f0", true⟩, some [Key.idx 0]), (⟨"f2", true⟩, some [Key.idx 2])]
          LeafInpCrown.fieldCrown fill_input_gap = .ok m →
        (lookupKP [Key.idx 1] m = some LeafInpCrown.noneCrown ∧
          ListCrown_list_len ((idxChildren m []).map
            (fun e => (e.1, LeafInpCrown.toCrown e.2))) = 3))) := by
  constructor
  · intro γ ftp fc gf ptl p S i hg hmem h0 hmax hni
    have hg2 := hg
    rw [get_paths_to_list] at hg2
    have hnd := get_paths_to_list_go_keys_nodup _ [] [] ptl (by simp) hg2
    refine ⟨ptl.foldl (fun m e => fillGapsOne gf m e.1 e.2) (leavesBase ftp fc),
      ?_, ?_⟩
    · rw [make_paths_to_leaves_eq, hg]
    · exact ptl_fold_lookup_gap gf ptl _ p S i hnd hmem
        ((mem_pyRangeInt _ _).mpr ⟨h0, hmax⟩) hni
  · refine ⟨rfl, rfl, fun m hm => ?_⟩
    rw [show make_paths_to_leaves
        [(⟨"f0", true⟩, some [Key.idx 0]), (⟨"f2", true⟩, some [Key.idx 2])]
        LeafInpCrown.fieldCrown fill_input_gap =
      .ok [([Key.idx 0], .fieldCrown "f0"), ([Key.idx 2], .fieldCrown "f2"),
        ([Key.idx 1], .noneCrown)] from rfl] at hm
    injection hm with h2
    subst h2
    exact ⟨rfl, rfl⟩

/-! ## C10: inconsistent path elements -/

theorem getD_eq_of_getElem (l : List Key) (n : Nat) (k d : Key)
    (h : l[n]? = some k) : l.getD n d = k := by
  rw [List.getD, List.get?_eq_getElem?, h]
  rfl

theorem getD_take_eq (p : List Key) (j j2 : Nat) (h : j2 < j) (d : Key) :
    (p.take j).getD j2 d = p.getD j2 d := by
  rw [List.getD, List.getD, List.get?_eq_getElem?, List.get?_eq_getElem?,
    List.getElem?_take, if_pos h]

theorem pairAt_of_getElem (p : KeyPath) (n : Nat) (k : Key) (h : p[n]? = some k) :
    pairAt p n = (p.take n, k) := by
  rw [pairAt, getD_eq_of_getElem p n k _ h]

theorem take_ne_take (p : KeyPath) (j i : Nat) (hji : j < i) (hi : i ≤ p.length) :
    p.take j ≠ p.take i := by
  intro h
  have h2 := congrArg List.length h
  simp only [List.length_take] at h2
  omega

theorem pairAt_ne (p : KeyPath) (j i : Nat) (hji : j < i) (hi : i ≤ p.length) :
    pairAt p j ≠ pairAt p i := by
  intro h
  exact take_ne_take p j i hji hi (congrArg Prod.fst h)

theorem pairAt_take (p : KeyPath) (j j2 : Nat) (hj : j2 < j) (hjp : j ≤ p.length) :
    pairAt (p.take j) j2 = pairAt p j2 := by
  rw [pairAt, pairAt, List.take_take]
  have hmin : min j2 j = j2 := Nat.min_eq_left (le_of_lt hj)
  rw [hmin]
  congr 1
  exact getD_take_eq p j j2 hj _

theorem subPathsStep_subset (p : KeyPath) (y : List SubPath) (n : Nat) :
    ∀ x ∈ y, x ∈ (subPathsStep p y n).1 := by
  induction n generalizing y with
  | zero => intro x hx; simpa [subPathsStep] using hx
  | succ n ih =>
    intro x hx
    rcases hg : p[n]? with _ | k
    · simpa [subPathsStep, hg] using hx
    · by_cases hr : ((p.take n, k) : SubPath) ∈ y
      · simpa [subPathsStep, hg, hr] using hx
      · rw [show (subPathsStep p y (n + 1)).1
            = (subPathsStep p ((p.take n, k) :: y) n).1 by
          simp [subPathsStep, hg, hr]]
        exact ih _ x (List.mem_cons_of_mem _ hx)

theorem subPathsStep_mem_fst (p : KeyPath) (y : List SubPath) (n : Nat)
    (x : SubPath) :
    x ∈ (subPathsStep p y n).1 ↔ x ∈ y ∨ x ∈ (subPathsStep p y n).2 := by
  induction n generalizing y with
  | zero => simp [subPathsStep]
  | succ n ih =>
    rcases hg : p[n]? with _ | k
    · simp [subPathsStep, hg]
    · by_cases hr : ((p.take n, k) : SubPath) ∈ y
      · simp [subPathsStep, hg, hr]
      · rw [show (subPathsStep p y (n + 1)).1
            = (subPathsStep p ((p.take n, k) :: y) n).1 by
          simp [subPathsStep, hg, hr],
          show (subPathsStep p y (n + 1)).2
            = (p.take n, k) :: (subPathsStep p ((p.take n, k) :: y) n).2 by
          simp [subPathsStep, hg, hr],
          ih]
        constructor
        · rintro (h | h)
          · rcases List.mem_cons.mp h with rfl | h2
            · exact Or.inr (List.mem_cons_self _ _)
            · exact Or.inl h2
          · exact Or.inr (List.mem_cons_of_mem _ h)
        · rintro (h | h)
          · exact Or.inl (List.mem_cons_of_mem _ h)
          · rcases List.mem_cons.mp h with rfl | h2
            · exact Or.inl (List.mem_cons_self _ _)
            · exact Or.inr h2

theorem subPathsStep_out_mem (p : KeyPath) (y : List SubPath) (n : Nat)
    (x : SubPath) (hx : x ∈ (subPathsStep p y n).2) :
    ∃ j, j < n ∧ j < p.length ∧ x = pairAt p j := by
  induction n generalizing y with
  | zero => simp [subPathsStep] at hx
  | succ n ih =>
    rcases hg : p[n]? with _ | k
    · simp [subPathsStep, hg] at hx
    · have hlen : n < p.length := by
        by_contra hcon
        rw [List.getElem?_eq_none (by omega)] at hg
        cases hg
      by_cases hr : ((p.take n, k) : SubPath) ∈ y
      · simp [subPathsStep, hg, hr] at hx
      · rw [show (subPathsStep p y (n + 1)).2
            = (p.take n, k) :: (subPathsStep p ((p.take n, k) :: y) n).2 by
          simp [subPathsStep, hg, hr]] at hx
        rcases List.mem_cons.mp hx with rfl | h2
        · exact ⟨n, Nat.lt_succ_self n, hlen, (pairAt_of_getElem p n k hg).symm⟩
        · obtain ⟨j, hj1, hj2, hj3⟩ := ih _ h2
          exact ⟨j, by omega, hj2, hj3⟩

theorem subPathsStep_complete (p : KeyPath) (n : Nat) (hn : n ≤ p.length)
    (y : List SubPath)
    (hdc : ∀ j, j < n → pairAt p j ∈ y → ∀ j2, j2 < j → pairAt p j2 ∈ y) :
    ∀ j, j < n → pairAt p j ∈ (subPathsStep p y n).1 := by
  induction n generalizing y with
  | zero => intro j hj; omega
  | succ n ih =>
    intro j hj
    have hlt : n < p.length := by omega
    rcases hk : p[n]? with _ | k
    · rw [List.getElem?_eq_none_iff] at hk
      omega
    · have hpn : pairAt p n = (p.take n, k) := pairAt_of_getElem p n k hk
      by_cases hr : ((p.take n, k) : SubPath) ∈ y
      · rw [show (subPathsStep p y (n + 1)).1 = y by simp [subPathsStep, hk, hr]]
        rcases Nat.lt_succ_iff_lt_or_eq.mp hj with hj2 | rfl
        · exact hdc n (Nat.lt_succ_self n) (hpn ▸ hr) j hj2
        · exact hpn ▸ hr
      · rw [show (subPathsStep p y (n + 1)).1
            = (subPathsStep p ((p.take n, k) :: y) n).1 by
          simp [subPathsStep, hk, hr]]
        rcases Nat.lt_succ_iff_lt_or_eq.mp hj with hj2 | rfl
        · apply ih (by omega) ((p.take n, k) :: y) ?_ j hj2
          intro j3 hj3 hmem j4 hj4
          rcases List.mem_cons.mp hmem with heq | hmem2
          · exact absurd (heq.trans hpn.symm)
              (pairAt_ne p j3 n hj3 (le_of_lt hlt))
          · exact List.mem_cons_of_mem _ (hdc j3 (by omega) hmem2 j4 hj4)
        · exact subPathsStep_subset p ((p.take j, k) :: y) j (pairAt p j)
            (by rw [hpn]; exact List.mem_cons_self _ _)

theorem closedSP_dc (y : List SubPath) (hy : ClosedSP y) (p : KeyPath) (n : Nat)
    (hn : n ≤ p.length) :
    ∀ j, j < n → pairAt p j ∈ y → ∀ j2, j2 < j → pairAt p j2 ∈ y := by
  intro j hj hmem j2 hj2
  have h2 := hy (pairAt p j) hmem j2 (by
    show j2 < (pairAt p j).1.length
    rw [pairAt]
    simp only [List.length_take]
    omega)
  rwa [show (pairAt p j).1 = p.take j from rfl,
    pairAt_take p j j2 hj2 (by omega)] at h2

theorem closedSP_step (p : KeyPath) (y : List SubPath) (hy : ClosedSP y) :
    ClosedSP (subPathsStep p y p.length).1 := by
  intro pr hpr j hj
  rcases (subPathsStep_mem_fst p y p.length pr).mp hpr with hin | hout
  · exact subPathsStep_subset p y p.length _ (hy pr hin j hj)
  · obtain ⟨j2, hj2, hj2len, rfl⟩ := subPathsStep_out_mem p y p.length pr hout
    have hjj : j < j2 := by
      have hlen : (pairAt p j2).1.length = j2 := by
        rw [pairAt]
        simp only [List.length_take]
        omega
      omega
    rw [show (pairAt p j2).1 = p.take j2 from rfl,
      pairAt_take p j2 j hjj (by omega)]
    exact subPathsStep_complete p p.length (le_refl _) y
      (closedSP_dc y hy p p.length (le_refl _)) j (by omega)

theorem iterate_go_complete (paths : List KeyPath) (y : List SubPath)
    (hy : ClosedSP y) (p : KeyPath) (hp : p ∈ paths) (j : Nat)
    (hj : j < p.length) :
    pairAt p j ∈ y ∨ pairAt p j ∈ iterate_sub_paths_go y paths := by
  induction paths generalizing y with
  | nil => simp at hp
  | cons q rest ih =>
    rcases List.mem_cons.mp hp with rfl | hp2
    · have hin := subPathsStep_complete p p.length (le_refl _) y
        (closedSP_dc y hy p p.length (le_refl _)) j hj
      rcases (subPathsStep_mem_fst p y p.length _).mp hin with h | h
      · exact Or.inl h
      · refine Or.inr ?_
        rw [show iterate_sub_paths_go y (p :: rest)
            = (subPathsStep p y p.length).2
              ++ iterate_sub_paths_go (subPathsStep p y p.length).1 rest by
          simp [iterate_sub_paths_go]]
        exact List.mem_append_left _ h
    · rcases ih (subPathsStep q y q.length).1 (closedSP_step q y hy) hp2 with h | h
      · rcases (subPathsStep_mem_fst q y q.length _).mp h with h2 | h2
        · exact Or.inl h2
        · refine Or.inr ?_
          rw [show iterate_sub_paths_go y (q :: rest)
              = (subPathsStep q y q.length).2
                ++ iterate_sub_paths_go (subPathsStep q y q.length).1 rest by
            simp [iterate_sub_paths_go]]
          exact List.mem_append_left _ h2
      · refine Or.inr ?_
        rw [show iterate_sub_paths_go y (q :: rest)
            = (subPathsStep q y q.length).2
              ++ iterate_sub_paths_go (subPathsStep q y q.length).1 rest by
          simp [iterate_sub_paths_go]]
        exact List.mem_append_right _ h

theorem iterate_sub_paths_complete (paths : List KeyPath) (p : KeyPath)
    (hp : p ∈ paths) (j : Nat) (hj : j < p.length) :
    pairAt p j ∈ iterate_sub_paths paths := by
  rcases iterate_go_complete paths [] (fun pr hpr => by simp at hpr) p hp j hj
    with h | h
  · simp at h
  · exact h

theorem pairAt_of_isPrefix (q : KeyPath) (k : Key) (p : KeyPath)
    (h : (q ++ [k]) <+: p) :
    q.length < p.length ∧ pairAt p q.length = (q, k) := by
  obtain ⟨t, ht⟩ := h
  constructor
  · rw [← ht]
    simp only [List.length_append, List.length_cons, List.length_nil]
    omega
  · rw [← ht, List.append_assoc, pairAt]
    refine Prod.ext ?_ ?_
    · show ((q ++ ([k] ++ t)).take q.length) = q
      exact List.take_left q ([k] ++ t)
    · show (q ++ ([k] ++ t)).getD q.length (.str "") = k
      apply getD_eq_of_getElem
      rw [List.getElem?_append_right (le_refl _)]
      simp

theorem get_paths_to_list_go_mixed_error (L : List SubPath)
    (lists : List (KeyPath × List Int)) (dicts : List KeyPath)
    (q : KeyPath) (a : Int) (s : String)
    (hdisj : ∀ x ∈ lists.map Prod.fst, ¬ x ∈ dicts)
    (hint : ((q, Key.idx a) : SubPath) ∈ L ∨ q ∈ lists.map Prod.fst)
    (hstr : ((q, Key.str s) : SubPath) ∈ L ∨ q ∈ dicts) :
    ∃ q2, get_paths_to_list_go lists dicts L =
      .error (.mk (some (.inconsistentPathElements q2)) [] true true) := by
  induction L generalizing lists dicts with
  | nil =>
    exfalso
    rcases hint with h | h
    · simp at h
    · rcases hstr with h2 | h2
      · simp at h2
      · exact hdisj q h h2
  | cons pr rest ih =>
    rcases pr with ⟨sp, key⟩
    cases key with
    | idx i =>
      by_cases hd : sp ∈ dicts
      · exact ⟨sp, by simp [get_paths_to_list_go, hd]⟩
      · rw [show get_paths_to_list_go lists dicts ((sp, Key.idx i) :: rest)
            = get_paths_to_list_go (addListIdx lists sp i) dicts rest by
          simp [get_paths_to_list_go, hd]]
        apply ih
        · intro x hx
          rw [addListIdx_keys] at hx
          by_cases hsp : sp ∈ lists.map Prod.fst
          · rw [if_pos hsp] at hx
            exact hdisj x hx
          · rw [if_neg hsp] at hx
            rcases List.mem_append.mp hx with h2 | h2
            · exact hdisj x h2
            · simp at h2
              subst h2
              exact hd
        · rcases hint with h | h
          · rcases List.mem_cons.mp h with heq | h2
            · refine Or.inr ?_
              injection heq with h3 h4
              subst h3
              rw [addListIdx_keys]
              by_cases hsp : q ∈ lists.map Prod.fst
              · rwa [if_pos hsp]
              · rw [if_neg hsp]
                exact List.mem_append_right _ (by simp)
            · exact Or.inl h2
          · refine Or.inr ?_
            rw [addListIdx_keys]
            by_cases hsp : sp ∈ lists.map Prod.fst
            · rwa [if_pos hsp]
            · rw [if_neg hsp]
              exact List.mem_append_left _ h
        · rcases hstr with h | h
          · rcases List.mem_cons.mp h with heq | h2
            · exfalso
              injection heq with h3 h4
              cases h4
            · exact Or.inl h2
          · exact Or.inr h
    | str s2 =>
      by_cases hd : sp ∈ lists.map Prod.fst
      · exact ⟨sp, by simp [get_paths_to_list_go, hd]⟩
      · rw [show get_paths_to_list_go lists dicts ((sp, Key.str s2) :: rest)
            = get_paths_to_list_go lists (addDictPath dicts sp) rest by
          simp [get_paths_to_list_go, hd]]
        apply ih
        · intro x hx hx2
          rw [addDictPath] at hx2
          by_cases hsp : sp ∈ dicts
          · rw [if_pos hsp] at hx2
            exact hdisj x hx hx2
          · rw [if_neg hsp] at hx2
            rcases List.mem_append.mp hx2 with h2 | h2
            · exact hdisj x hx h2
            · simp at h2
              subst h2
              exact hd hx
        · rcases hint with h | h
          · rcases List.mem_cons.mp h with heq | h2
            · exfalso
              injection heq with h3 h4
              cases h4
            · exact Or.inl h2
          · exact Or.inr h
        · rcases hstr with h | h
          · rcases List.mem_cons.mp h with heq | h2
            · refine Or.inr ?_
              injection heq with h3 h4
              subst h3
              rw [addDictPath]
              by_cases hsp : q ∈ dicts
              · rwa [if_pos hsp]
              · rw [if_neg hsp]
                exact List.mem_append_right _ (by simp)
            · exact Or.inl h2
          · refine Or.inr ?_
            rw [addDictPath]
            by_cases hsp : sp ∈ dicts
            · rwa [if_pos hsp]
            · rw [if_neg hsp]
              exact List.mem_append_left _ h

theorem dictInsert_keys {γ : Type} (m : List (KeyPath × γ)) (k : KeyPath) (v : γ) :
    (dictInsert m k v).map Prod.fst =
      if k ∈ m.map Prod.fst then m.map Prod.fst else m.map Prod.fst ++ [k] := by
  induction m with
  | nil => simp [dictInsert]
  | cons e rest ih =>
    rcases e with ⟨q, v2⟩
    by_cases hq : q = k
    · subst hq
      simp [dictInsert]
    · rw [show dictInsert ((q, v2) :: rest) k v
          = (q, v2) :: dictInsert rest k v by simp [dictInsert, hq]]
      by_cases h2 : k ∈ rest.map Prod.fst
      · have hmem : k ∈ ((q, v2) :: rest).map Prod.fst := by simp [h2]
        rw [if_pos hmem]
        simp only [List.map_cons]
        rw [ih, if_pos h2]
      · have hmem : ¬ k ∈ ((q, v2) :: rest).map Prod.fst := by
          simp only [List.map_cons, List.mem_cons]
          rintro (h | h)
          · exact hq h.symm
          · exact h2 h
        rw [if_neg hmem]
        simp only [List.map_cons]
        rw [ih, if_neg h2]
        simp

theorem leavesBase_go_keys {γ : Type} (ftp : List FieldAndPath) (fc : String → γ)
    (acc : List (KeyPath × γ)) (p : KeyPath) :
    (p ∈ (ftp.foldl (fun m fp =>
        match fp.2 with
        | none => m
        | some path => dictInsert m path (fc fp.1.id)) acc).map Prod.fst ↔
      (p ∈ acc.map Prod.fst ∨ ∃ f, (f, some p) ∈ ftp)) := by
  induction ftp generalizing acc with
  | nil => simp
  | cons fp rest ih =>
    rcases fp with ⟨f, po⟩
    cases po with
    | none =>
      rw [List.foldl_cons]
      simp only []
      rw [ih]
      constructor
      · rintro (h | ⟨f2, h⟩)
        · exact Or.inl h
        · exact Or.inr ⟨f2, List.mem_cons_of_mem _ h⟩
      · rintro (h | ⟨f2, h⟩)
        · exact Or.inl h
        · rcases List.mem_cons.mp h with heq | h2
          · cases heq
          · exact Or.inr ⟨f2, h2⟩
    | some path =>
      rw [List.foldl_cons]
      simp only []
      rw [ih]
      constructor
      · rintro (h | ⟨f2, h⟩)
        · rw [dictInsert_keys] at h
          by_cases hp2 : path ∈ acc.map Prod.fst
          · rw [if_pos hp2] at h
            exact Or.inl h
          · rw [if_neg hp2] at h
            rcases List.mem_append.mp h with h2 | h2
            · exact Or.inl h2
            · simp at h2
              subst h2
              exact Or.inr ⟨f, List.mem_cons_self _ _⟩
        · exact Or.inr ⟨f2, List.mem_cons_of_mem _ h⟩
      · rintro (h | ⟨f2, h⟩)
        · refine Or.inl ?_
          rw [dictInsert_keys]
          by_cases hp2 : path ∈ acc.map Prod.fst
          · rwa [if_pos hp2]
          · rw [if_neg hp2]
            exact List.mem_append_left _ h
        · rcases List.mem_cons.mp h with heq | h2
          · injection heq with h3 h4
            injection h4 with h5
            subst h5
            refine Or.inl ?_
            rw [dictInsert_keys]
            by_cases hp2 : p ∈ acc.map Prod.fst
            · rwa [if_pos hp2]
            · rw [if_neg hp2]
              exact List.mem_append_right _ (by simp)
          · exact Or.inr ⟨f2, h2⟩

theorem mem_leavesBase_keys {γ : Type} (ftp : List FieldAndPath)
    (fc : String → γ) (p : KeyPath) :
    p ∈ (leavesBase ftp fc).map Prod.fst ↔ ∃ f, (f, some p) ∈ ftp := by
  rw [leavesBase, leavesBase_go_keys]
  simp

/-- C10: if one mapped leaf path continues from a common parent sub-path with
a list index and another with a dict key, leaf-map construction (the gap
analysis of `_make_paths_to_leaves` / `_get_paths_to_list`) fails with a
terminal, demonstrative inconsistent-path-elements `CannotProvide`, even
though neither path duplicates nor prefixes the other. -/
theorem mixed_path_elements_spec {γ : Type} (ftp : List FieldAndPath)
    (field_crown : String → γ) (gaps_filler : KeyPath → γ)
    (q : KeyPath) (a : Int) (s : String)
    (h1 : ∃ f1 p1, (f1, some p1) ∈ ftp ∧ (q ++ [Key.idx a]) <+: p1)
    (h2 : ∃ f2 p2, (f2, some p2) ∈ ftp ∧ (q ++ [Key.str s]) <+: p2) :
    ∃ e q2, make_paths_to_leaves ftp field_crown gaps_filler = .error e ∧
      e.is_terminal = true ∧ e.is_demonstrative = true ∧
      e.message = some (.inconsistentPathElements q2) := by
  obtain ⟨f1, p1, hf1, hpre1⟩ := h1
  obtain ⟨f2, p2, hf2, hpre2⟩ := h2
  have hp1 : p1 ∈ (leavesBase ftp field_crown).map Prod.fst :=
    (mem_leavesBase_keys ftp field_crown p1).mpr ⟨f1, hf1⟩
  have hp2 : p2 ∈ (leavesBase ftp field_crown).map Prod.fst :=
    (mem_leavesBase_keys ftp field_crown p2).mpr ⟨f2, hf2⟩
  obtain ⟨hl1, hpa1⟩ := pairAt_of_isPrefix q (Key.idx a) p1 hpre1
  obtain ⟨hl2, hpa2⟩ := pairAt_of_isPrefix q (Key.str s) p2 hpre2
  have hmem1 : ((q, Key.idx a) : SubPath)
      ∈ iterate_sub_paths ((leavesBase ftp field_crown).map Prod.fst) := by
    have h := iterate_sub_paths_complete _ p1 hp1 q.length hl1
    rwa [hpa1] at h
  have hmem2 : ((q, Key.str s) : SubPath)
      ∈ iterate_sub_paths ((leavesBase ftp field_crown).map Prod.fst) := by
    have h := iterate_sub_paths_complete _ p2 hp2 q.length hl2
    rwa [hpa2] at h
  obtain ⟨q2, hgo⟩ := get_paths_to_list_go_mixed_error _ [] [] q a s
    (by simp) (Or.inl hmem1) (Or.inl hmem2)
  refine ⟨.mk (some (.inconsistentPathElements q2)) [] true true, q2, ?_, rfl, rfl, rfl⟩
  rw [make_paths_to_leaves_eq, get_paths_to_list, hgo]

/-- C10 witness: fields mapped to `("a", 0)` and `("a", "b")` — neither a
duplicate nor a prefix of the other — make structure building fail with the
terminal, demonstrative inconsistent-path-elements error. -/
theorem mixed_path_elements_spec_witness :
    ∃ e q2, make_paths_to_leaves
        [((⟨"x", true⟩ : AnyField), some [Key.str "a", Key.idx 0]),
          ((⟨"y", true⟩ : AnyField), some [Key.str "a", Key.str "b"])]
        LeafInpCrown.fieldCrown fill_input_gap = .error e ∧
      e.is_terminal = true ∧ e.is_demonstrative = true ∧
      e.message = some (.inconsistentPathElements q2) :=
  mixed_path_elements_spec
    [((⟨"x", true⟩ : AnyField), some [Key.str "a", Key.idx 0]),
      ((⟨"y", true⟩ : AnyField), some [Key.str "a", Key.str "b"])]
    LeafInpCrown.fieldCrown fill_input_gap [Key.str "a"] 0 "b"
    ⟨⟨"x", true⟩, [Key.str "a", Key.idx 0], List.mem_cons_self _ _, ⟨[], by simp⟩⟩
    ⟨⟨"y", true⟩, [Key.str "a", Key.str "b"],
      List.mem_cons_of_mem _ (List.mem_cons_self _ _), ⟨[], by simp⟩⟩

/-! ## C9: Collect with list mapping -/

theorem mem_subPairsDesc (p : KeyPath) (n : Nat) :
    ∀ j, j < n → n ≤ p.length → pairAt p j ∈ subPairsDesc p n := by
  induction n with
  | zero => intro j hj _; omega
  | succ n ih =>
    intro j hj hn
    rcases hk : p[n]? with _ | k
    · rw [List.getElem?_eq_none_iff] at hk
      omega
    · rw [show subPairsDesc p (n + 1) = (p.take n, k) :: subPairsDesc p n by
        simp [subPairsDesc, hk]]
      rcases Nat.lt_succ_iff_lt_or_eq.mp hj with h2 | rfl
      · exact List.mem_cons_of_mem _ (ih j h2 (by omega))
      · rw [pairAt_of_getElem p j k hk]
        exact List.mem_cons_self _ _

theorem subPairsDesc_mem_char (p : KeyPath) (n : Nat) :
    ∀ x ∈ subPairsDesc p n, ∃ j, j < n ∧ j < p.length ∧ x = pairAt p j := by
  induction n with
  | zero => simp [subPairsDesc]
  | succ n ih =>
    intro x hx
    rcases hk : p[n]? with _ | k
    · rw [show subPairsDesc p (n + 1) = subPairsDesc p n by
        simp [subPairsDesc, hk]] at hx
      obtain ⟨j, h1, h2, h3⟩ := ih x hx
      exact ⟨j, by omega, h2, h3⟩
    · have hlen : n < p.length := by
        by_contra hcon
        rw [List.getElem?_eq_none (by omega)] at hk
        cases hk
      rw [show subPairsDesc p (n + 1) = (p.take n, k) :: subPairsDesc p n by
        simp [subPairsDesc, hk]] at hx
      rcases List.mem_cons.mp hx with rfl | h2
      · exact ⟨n, Nat.lt_succ_self n, hlen, (pairAt_of_getElem p n k hk).symm⟩
      · obtain ⟨j, h1, h2, h3⟩ := ih x h2
        exact ⟨j, by omega, h2, h3⟩

theorem mem_branchesOfPath (p : KeyPath) (j : Nat) (hj : j < p.length) :
    pairAt p j ∈ branchesOfPath p := by
  rcases hlast : p.getLast? with _ | k
  · rw [List.getLast?_eq_none_iff] at hlast
    subst hlast
    simp at hj
  · rw [show branchesOfPath p = subPairsDesc p p.length ++ [(p.dropLast, k)] by
      simp [branchesOfPath, hlast]]
    exact List.mem_append_left _ (mem_subPairsDesc p p.length j hj (le_refl _))

theorem key_mem_of_pairAt (p : KeyPath) (j : Nat) (hj : j < p.length) :
    (pairAt p j).2 ∈ p := by
  rcases hk : p[j]? with _ | k
  · rw [List.getElem?_eq_none_iff] at hk
    omega
  · rw [show (pairAt p j).2 = p.getD j (.str "") from rfl,
      getD_eq_of_getElem p j k _ hk]
    exact List.mem_iff_getElem?.mpr ⟨j, hk⟩

theorem paths_to_branches_key_mem (lp : List KeyPath) (pr : SubPath)
    (h : pr ∈ paths_to_branches lp) : ∃ p ∈ lp, pr.2 ∈ p := by
  rw [paths_to_branches, List.mem_flatMap] at h
  obtain ⟨p, hp, hpr⟩ := h
  refine ⟨p, hp, ?_⟩
  rcases hlast : p.getLast? with _ | k
  · rw [show branchesOfPath p = [] by simp [branchesOfPath, hlast]] at hpr
    simp at hpr
  · rw [show branchesOfPath p = subPairsDesc p p.length ++ [(p.dropLast, k)] by
      simp [branchesOfPath, hlast]] at hpr
    rcases List.mem_append.mp hpr with h2 | h2
    · obtain ⟨j, hj1, hj2, h3⟩ := subPairsDesc_mem_char p _ pr h2
      rw [h3]
      exact key_mem_of_pairAt p j hj2
    · simp only [List.mem_singleton] at h2
      rw [h2]
      obtain ⟨hnil, heq⟩ := List.mem_getLast?_eq_getLast (Option.mem_def.mpr hlast)
      rw [show ((p.dropLast, k) : SubPath).2 = k from rfl, heq]
      exact List.getLast_mem hnil

theorem dictInsert_values {γ : Type} (m : List (KeyPath × γ)) (k : KeyPath)
    (v : γ) (P : γ → Prop) (hm : ∀ e ∈ m, P e.2) (hv : P v) :
    ∀ e ∈ dictInsert m k v, P e.2 := by
  induction m with
  | nil =>
    intro e he
    rw [show dictInsert ([] : List (KeyPath × γ)) k v = [(k, v)] from rfl] at he
    simp only [List.mem_singleton] at he
    rw [he]
    exact hv
  | cons e2 rest ih =>
    rcases e2 with ⟨k2, v2⟩
    intro e he
    by_cases hk : k2 = k
    · rw [show dictInsert ((k2, v2) :: rest) k v = (k2, v) :: rest by
        simp [dictInsert, hk]] at he
      rcases List.mem_cons.mp he with rfl | h2
      · exact hv
      · exact hm e (List.mem_cons_of_mem _ h2)
    · rw [show dictInsert ((k2, v2) :: rest) k v
          = (k2, v2) :: dictInsert rest k v by simp [dictInsert, hk]] at he
      rcases List.mem_cons.mp he with rfl | h2
      · exact hm (k2, v2) (List.mem_cons_self _ _)
      · exact ih (fun e3 he3 => hm e3 (List.mem_cons_of_mem _ he3)) e h2

theorem lookupKP_of_mem_keys {γ : Type} (m : List (KeyPath × γ)) (q : KeyPath)
    (h : q ∈ m.map Prod.fst) : ∃ v, lookupKP q m = some v ∧ (q, v) ∈ m := by
  induction m with
  | nil => simp at h
  | cons e rest ih =>
    rcases e with ⟨k2, v2⟩
    by_cases hk : k2 = q
    · subst hk
      exact ⟨v2, by simp [lookupKP], List.mem_cons_self _ _⟩
    · simp only [List.map_cons, List.mem_cons] at h
      rcases h with h | h
      · exact absurd h.symm hk
      · obtain ⟨v, hv, hmem⟩ := ih h
        refine ⟨v, ?_, List.mem_cons_of_mem _ hmem⟩
        rw [show lookupKP q ((k2, v2) :: rest) = lookupKP q rest by
          simp [lookupKP, hk]]
        exact hv

theorem make_extra_policies_go_error (L : List SubPath) (policy : ExtraPolicy)
    (hp : policy = .collect) :
    ∀ acc, (∃ pr ∈ L, pr.2.isIdx = true) →
      make_extra_policies_go policy acc L =
        .error (.mk (some .collectExtraInWithListMapping) [] true true) := by
  induction L with
  | nil =>
    intro acc hL
    simp at hL
  | cons pr rest ih =>
    intro acc hL
    rcases pr with ⟨path, key⟩
    by_cases hcond : policy = .collect ∧ key.isIdx = true
    · simp [make_extra_policies_go, hcond]
    · rw [show make_extra_policies_go policy acc ((path, key) :: rest)
          = make_extra_policies_go policy (dictInsert acc path policy) rest by
        simp [make_extra_policies_go, hcond]]
      apply ih
      obtain ⟨pr2, hpr2, hidx⟩ := hL
      rcases List.mem_cons.mp hpr2 with heq | h2
      · exfalso
        subst heq
        exact hcond ⟨hp, hidx⟩
      · exact ⟨pr2, h2, hidx⟩

theorem make_extra_policies_go_spec (L : List SubPath) (policy : ExtraPolicy)
    (hL : ∀ pr ∈ L, pr.2.isIdx = false) :
    ∀ acc, (∀ e ∈ acc, e.2 = policy) →
      ∃ m, make_extra_policies_go policy acc L = .ok m ∧
        (∀ e ∈ m, e.2 = policy) ∧
        (∀ k, k ∈ acc.map Prod.fst → k ∈ m.map Prod.fst) ∧
        (∀ pr ∈ L, pr.1 ∈ m.map Prod.fst) := by
  induction L with
  | nil =>
    intro acc hacc
    exact ⟨acc, rfl, hacc, fun k h => h, by simp⟩
  | cons pr rest ih =>
    intro acc hacc
    rcases pr with ⟨path, key⟩
    have hcond : ¬ (policy = .collect ∧ key.isIdx = true) := by
      rintro ⟨h1, h2⟩
      have h3 := hL (path, key) (List.mem_cons_self _ _)
      rw [h3] at h2
      cases h2
    rw [show make_extra_policies_go policy acc ((path, key) :: rest)
        = make_extra_policies_go policy (dictInsert acc path policy) rest by
      simp [make_extra_policies_go, hcond]]
    obtain ⟨m, hm, hval, hkeys, hprs⟩ := ih
      (fun pr2 hpr2 => hL pr2 (List.mem_cons_of_mem _ hpr2))
      (dictInsert acc path policy)
      (dictInsert_values acc path policy (fun v => v = policy) hacc rfl)
    refine ⟨m, hm, hval, ?_, ?_⟩
    · intro k hk
      apply hkeys
      rw [dictInsert_keys]
      by_cases h2 : path ∈ acc.map Prod.fst
      · rwa [if_pos h2]
      · rw [if_neg h2]
        exact List.mem_append_left _ hk
    · intro pr2 hpr2
      rcases List.mem_cons.mp hpr2 with heq | h2
      · subst heq
        apply hkeys
        rw [dictInsert_keys]
        by_cases hp2 : path ∈ acc.map Prod.fst
        · rw [if_pos hp2]
          exact hp2
        · rw [if_neg hp2]
          exact List.mem_append_right _ (by simp)
      · exact hprs pr2 h2

/-- C9: with the root extra policy resolved to `Collect` (an `extra_in` that
is neither skip nor forbid) and nonempty mapped leaf paths, the extra-policies
maker fails with a terminal, demonstrative `CannotProvide` whenever any key
anywhere along a mapped leaf path is a list index, and otherwise succeeds,
assigning the unchanged root policy to the root path and to every branch path
(every proper prefix of a leaf path). -/
theorem make_extra_policies_collect_spec (extra_in : ExtraIn)
    (leaf_paths : List KeyPath)
    (hpol : get_extra_policy extra_in = .collect)
    (hne : ¬ ([] : KeyPath) ∈ leaf_paths) :
    ((∃ p ∈ leaf_paths, ∃ k ∈ p, k.isIdx = true) →
      make_extra_policies extra_in leaf_paths =
        .error (.mk (some .collectExtraInWithListMapping) [] true true)) ∧
    ((∀ p ∈ leaf_paths, ∀ k ∈ p, k.isIdx = false) →
      ∃ m, make_extra_policies extra_in leaf_paths = .ok m ∧
        lookupKP [] m = some .collect ∧
        ∀ p ∈ leaf_paths, ∀ i, i < p.length →
          lookupKP (p.take i) m = some .collect) := by
  constructor
  · rintro ⟨p, hp, k, hk, hidx⟩
    rw [make_extra_policies]
    apply make_extra_policies_go_error _ _ hpol
    obtain ⟨j, hj⟩ := List.mem_iff_getElem?.mp hk
    have hjlen : j < p.length := by
      by_contra hcon
      rw [List.getElem?_eq_none (by omega)] at hj
      cases hj
    refine ⟨pairAt p j, ?_, ?_⟩
    · rw [paths_to_branches, List.mem_flatMap]
      exact ⟨p, hp, mem_branchesOfPath p j hjlen⟩
    · rw [pairAt_of_getElem p j k hj]
      exact hidx
  · intro hnoidx
    have hL : ∀ pr ∈ paths_to_branches leaf_paths, pr.2.isIdx = false := by
      intro pr hpr
      obtain ⟨p, hp, hmem⟩ := paths_to_branches_key_mem leaf_paths pr hpr
      exact hnoidx p hp pr.2 hmem
    obtain ⟨m, hm, hval, hkeys, hprs⟩ := make_extra_policies_go_spec
      (paths_to_branches leaf_paths) (get_extra_policy extra_in) hL
      [([], get_extra_policy extra_in)] (by intro e he; simp at he; rw [he])
    refine ⟨m, ?_, ?_, ?_⟩
    · rw [make_extra_policies]
      exact hm
    · obtain ⟨v, hv, hvm⟩ := lookupKP_of_mem_keys m [] (hkeys [] (by simp))
      have hveq : v = get_extra_policy extra_in := hval _ hvm
      rw [hv, hveq, hpol]
    · intro p hp i hi
      have hbr : (pairAt p i) ∈ paths_to_branches leaf_paths := by
        rw [paths_to_branches, List.mem_flatMap]
        exact ⟨p, hp, mem_branchesOfPath p i hi⟩
      obtain ⟨v, hv, hvm⟩ := lookupKP_of_mem_keys m (p.take i) (hprs _ hbr)
      have hveq : v = get_extra_policy extra_in := hval _ hvm
      rw [hv, hveq, hpol]

/-- C9 witness: `extra_in = kwargs` (root policy Collect) over leaf paths
`("a",)` and `("b","c")`, which hold no list index: the maker succeeds with
Collect at the root and at every branch path. -/
theorem make_extra_policies_collect_spec_witness :
    ∃ m, make_extra_policies .kwargs
        [[Key.str "a"], [Key.str "b", Key.str "c"]] = .ok m ∧
      lookupKP [] m = some .collect ∧
      ∀ p ∈ [[Key.str "a"], [Key.str "b", Key.str "c"]], ∀ i, i < p.length →
        lookupKP (p.take i) m = some .collect :=
  (make_extra_policies_collect_spec .kwargs
      [[Key.str "a"], [Key.str "b", Key.str "c"]] rfl (by simp)).2
    (by decide)

end Adaptix
